import Mathlib

/-!
Verification of the WhiteboardXR stroke curve-fitting and tessellation pipeline.

The JavaScript sources are embedded shallowly over exact rational arithmetic:
JS `number` becomes `ℚ`, a point `{x, y, z}` becomes `Point3`, the
`Matrix` class (a `rows × cols` array of numbers) becomes a padded function
`ℕ → ℕ → ℚ` that is zero outside the allocated range, and fallible code
returns `Option`.  Comparisons of Euclidean distances `sqrt d ≥ t` with
`t ≥ 0` are embedded as the equivalent `t^2 ≤ d` on the squared distance;
where a square root or trigonometric value flows into a result (tangent
normalisation, the single-point preview fan) the math library function is
taken as an explicit function parameter, so every definition stays
executable.
-/

namespace WXR

/-- A 3D point with exact rational coordinates (model of a THREE.Vector3 /
plain `{x, y, z}` object). -/
structure Point3 where
  x : ℚ
  y : ℚ
  z : ℚ
deriving DecidableEq, Repr

/-- The origin, used as the (never relevant) default for out-of-range reads. -/
def pOrigin : Point3 := ⟨0, 0, 0⟩

instance : Inhabited Point3 := ⟨pOrigin⟩

/-- `points[i]` on a JS array of points. -/
def pt (points : List Point3) (i : ℕ) : Point3 := points.getD i pOrigin

/-- A matrix, as in the `Matrix` class: entries are addressed by row and
column; the model pads the `rows × cols` array with zeros outside its
allocated range (the code never reads out of range). -/
abbrev Mat := ℕ → ℕ → ℚ

/-- The zero matrix (`new Matrix(rows, cols)` initializes with zeros). -/
def zeroMat : Mat := fun _ _ => 0

/-- In-place assignment `M.data[a][b] = v`. -/
def setEntry (M : Mat) (a b : ℕ) (v : ℚ) : Mat :=
  fun r c => if r = a ∧ c = b then v else M r c

/-- `Matrix.multiply(A, B)` where the inner dimension (`A.cols = B.rows`)
is `m`: the source loops `sum += A.data[i][k] * B.data[k][j]` for
`k ∈ [0, A.cols)`.  The dimension-mismatch throw cannot fire at the one
call site (`C⁻¹` is `(n−2)×(n−2)` and `S` is `(n−2)×2`). -/
def multiply (m : ℕ) (A B : Mat) : Mat :=
  fun i j => ∑ k ∈ Finset.range m, A i k * B k j

/-- The identity-matrix right half of the augmented matrix `[A | I]`. -/
def idMat : Mat := fun i j => if i = j then 1 else 0

/-- Gaussian-elimination state: the augmented matrix `[L | R]` of
`Matrix.inverse`, split into its left half (columns `[0, n)` of
`augmented`) and right half (columns `[n, 2n)`).  Every row operation of
the source acts on whole rows of `augmented`, hence on both halves. -/
structure GE where
  L : Mat
  R : Mat

/-- The destructuring row swap
`[augmented[i], augmented[maxRow]] = [augmented[maxRow], augmented[i]]`. -/
def rowSwap (M : Mat) (a b : ℕ) : Mat :=
  fun r => if r = a then M b else if r = b then M a else M r

/-- Pivot search of `Matrix.inverse`: scan `k ∈ [i+1, n)` and keep the row
whose column-`i` entry has strictly larger magnitude than the current
candidate's. -/
def pivotRow (L : Mat) (i m : ℕ) : ℕ :=
  (List.range' (i + 1) (m - (i + 1))).foldl
    (fun maxRow k => if |L maxRow i| < |L k i| then k else maxRow) i

/-- The singularity threshold `1e-10` of `Matrix.inverse`. -/
def eps : ℚ := 1 / 10 ^ 10

/-- One forward-elimination row update: for row `k`,
`factor = augmented[k][i] / augmented[i][i]` and
`augmented[k][j] -= factor * augmented[i][j]` for `j ∈ [i, 2n)` — that is
columns `≥ i` of the left half and (since every right-half source column
`n + j` is `≥ n > i`) all columns of the right half. -/
def elimRow (st : GE) (i k : ℕ) : GE :=
  let factor := st.L k i / st.L i i
  { L := fun r c => if r = k ∧ i ≤ c then st.L r c - factor * st.L i c else st.L r c
    R := fun r c => if r = k then st.R r c - factor * st.R i c else st.R r c }

/-- One step `i` of forward elimination: pivot search, row swap, the
singular check `|augmented[i][i]| < 1e-10` (`none` = the thrown error),
then elimination of the rows below. -/
def forwardStep (m : ℕ) (st : GE) (i : ℕ) : Option GE :=
  let p := pivotRow st.L i m
  let st1 : GE := ⟨rowSwap st.L i p, rowSwap st.R i p⟩
  if |st1.L i i| < eps then none
  else some ((List.range' (i + 1) (m - (i + 1))).foldl (fun s k => elimRow s i k) st1)

/-- Forward elimination over a list of step indices; a `none` from a step
(the singular-matrix throw) propagates out, as the exception does. -/
def forwardAux (m : ℕ) : GE → List ℕ → Option GE
  | st, [] => some st
  | st, i :: rest => (forwardStep m st i).bind fun st1 => forwardAux m st1 rest

/-- The forward-elimination loop `for (let i = 0; i < n; i++)`. -/
def forward (m : ℕ) (st : GE) : Option GE := forwardAux m st (List.range m)

/-- One back-substitution row update: `factor = augmented[k][i]` and
`augmented[k][j] -= factor * augmented[i][j]` for all `j ∈ [0, 2n)`. -/
def backElimRow (st : GE) (i k : ℕ) : GE :=
  let factor := st.L k i
  { L := fun r c => if r = k then st.L r c - factor * st.L i c else st.L r c
    R := fun r c => if r = k then st.R r c - factor * st.R i c else st.R r c }

/-- Pivot normalisation of back substitution:
`augmented[i][j] /= augmented[i][i]` for all `j ∈ [0, 2n)`. -/
def normRow (st : GE) (i : ℕ) : GE :=
  let pivot := st.L i i
  { L := fun r c => if r = i then st.L r c / pivot else st.L r c
    R := fun r c => if r = i then st.R r c / pivot else st.R r c }

/-- One step `i` of back substitution: normalise row `i`, then eliminate
column `i` from every row `k ∈ [0, i)` above. -/
def backStep (st : GE) (i : ℕ) : GE :=
  (List.range i).foldl (fun s k => backElimRow s i k) (normRow st i)

/-- Back substitution over a list of step indices. -/
def backAux : GE → List ℕ → GE
  | st, [] => st
  | st, i :: rest => backAux (backStep st i) rest

/-- The back-substitution loop `for (let i = n - 1; i >= 0; i--)`. -/
def back (m : ℕ) (st : GE) : GE := backAux st (List.range m).reverse

/-- `Matrix.inverse()` on an `m × m` matrix: Gaussian elimination with
partial pivoting on the augmented matrix `[A | I]`; `none` is the
`'Matrix is singular'` throw, otherwise the result is the extracted right
half. -/
def inverse (m : ℕ) (A : Mat) : Option Mat :=
  (forward m ⟨A, idMat⟩).map fun st => (back m st).R

/-- One iteration of the `BezierConverter.createSegment` loop filling the
tridiagonal matrix `C`: at `i = j` it writes `C[i][j] = 4` and, when
`i + 1 < n - 2`, also `C[i+1][j] = 1` and `C[i][j+1] = 1`. -/
def fillCStep (m : ℕ) (M : Mat) (i j : ℕ) : Mat :=
  if i = j then
    let M1 := setEntry M i j 4
    if i + 1 < m then setEntry (setEntry M1 (i + 1) j 1) i (j + 1) 1 else M1
  else M

/-- The double loop of `createSegment` that fills the `(n−2)×(n−2)`
matrix `C`, starting from the zero matrix.  Note it reads only the size
`m = n − 2`, never the point coordinates. -/
def buildC (m : ℕ) : Mat :=
  (List.range m).foldl
    (fun M i => (List.range m).foldl (fun M2 j => fillCStep m M2 i j) M) zeroMat

/-- The constant tridiagonal matrix (4 on the diagonal, 1 on the two
adjacent diagonals, zero elsewhere and outside the `m × m` range); the
claimed closed form of `buildC`. -/
def triC (m : ℕ) : Mat := fun i j =>
  if i < m ∧ j < m then
    (if i = j then 4 else if i = j + 1 ∨ j = i + 1 then 1 else 0)
  else 0

/-- Assignment of one row of the 2-column right-hand-side matrix `S`
(`S.data[r][0] = v0; S.data[r][1] = v1`). -/
def setRow2 (M : Mat) (r : ℕ) (v0 v1 : ℚ) : Mat :=
  setEntry (setEntry M r 0 v0) r 1 v1

/-- The `(n−2)×2` coefficient matrix `S` of `createSegment`, built exactly
as in the source: row 0 is `6*P[1] − P[0]`, the loop writes row `i+1` as
`6*P[i+2]` for `i ∈ [0, n−4)`, and row `n−3` is `6*P[n−2] − P[n−1]`
(componentwise in x and y; z is not fit). -/
def buildS (points : List Point3) : Mat :=
  let n := points.length
  let M1 := setRow2 zeroMat 0
    (6 * (pt points 1).x - (pt points 0).x)
    (6 * (pt points 1).y - (pt points 0).y)
  let M2 := (List.range (n - 4)).foldl
    (fun M i => setRow2 M (i + 1) (6 * (pt points (i + 2)).x) (6 * (pt points (i + 2)).y)) M1
  setRow2 M2 (n - 3)
    (6 * (pt points (n - 2)).x - (pt points (n - 1)).x)
    (6 * (pt points (n - 2)).y - (pt points (n - 1)).y)

/-- `BezierConverter.lerp`. -/
def lerp (p0 p1 t : ℚ) : ℚ := p0 + (p1 - p0) * t

/-- A cubic Bezier quadruple `(p0, p1, p2, p3)`: start point, two control
points, end point (`BezierQuadruple`). -/
structure BezierQuadruple where
  p0 : Point3
  p1 : Point3
  p2 : Point3
  p3 : Point3
deriving DecidableEq, Repr

instance : Inhabited BezierQuadruple := ⟨⟨pOrigin, pOrigin, pOrigin, pOrigin⟩⟩

/-- Entry `j` of the control-point array `D` of `createSegment`, read off
from its push order.  `D` receives, in order: two points interpolating
from `P[0]` to `B[0]` (array indices 0 and 1), then for each
`idx ∈ [1, n−2)` two points interpolating from `B[idx−1]` to `B[idx]`
(array indices `2*idx` and `2*idx+1`), then two points interpolating from
`B[n−3]` to `P[n−1]` (array indices `2*(n−2)` and `2*(n−2)+1`).  So entry
`j` has block index `idx = j / 2` and uses factor 1/3 for even `j`, 2/3
for odd `j`; its z copies the z of the knot the block is derived from. -/
def dCtrl (points : List Point3) (B : Mat) (j : ℕ) : Point3 :=
  let n := points.length
  let idx := j / 2
  let t : ℚ := if j % 2 = 0 then 1 / 3 else 2 / 3
  if idx = 0 then
    ⟨lerp (pt points 0).x (B 0 0) t, lerp (pt points 0).y (B 0 1) t, (pt points 0).z⟩
  else if idx < n - 2 then
    ⟨lerp (B (idx - 1) 0) (B idx 0) t, lerp (B (idx - 1) 1) (B idx 1) t, (pt points idx).z⟩
  else
    ⟨lerp (B (n - 3) 0) (pt points (n - 1)).x t, lerp (B (n - 3) 1) (pt points (n - 1)).y t,
      (pt points (n - 1)).z⟩

/-- `BezierConverter.createSegment(points)`: with fewer than 4 points it
warns and returns the empty list; otherwise it builds the tridiagonal
matrix `C`, inverts it (the `try`/`catch` turns the singular-matrix throw
into an empty result), solves `B = C⁻¹ · S`, derives the control-point
array `D`, and emits segment `i = (P[i], D[2i], D[2i+1], P[i+1])` for
`i ∈ [0, n−1)`. -/
def createSegment (points : List Point3) : List BezierQuadruple :=
  let n := points.length
  if n < 4 then []
  else
    (inverse (n - 2) (buildC (n - 2))).elim [] fun Cinv =>
      let B := multiply (n - 2) Cinv (buildS points)
      (List.range (n - 1)).map fun i =>
        ⟨pt points i, dCtrl points B (2 * i), dCtrl points B (2 * i + 1), pt points (i + 1)⟩

/-- Product invariant of Gaussian elimination on `[L | R]`: in the top-left
`m × m` window, `R · A = L`.  It holds initially (`I · A = A`) and every
row operation preserves it, because each new row is a linear combination of
old rows applied identically to both halves. -/
def ProdInv (m : ℕ) (A : Mat) (st : GE) : Prop :=
  ∀ r, r < m → ∀ c, c < m → multiply m st.R A r c = st.L r c

/-- Zero structure during forward elimination: before step `i`, column `c`
of any row `r` with `c < i` and `c < r` has been eliminated. -/
def LowerZero (m i : ℕ) (st : GE) : Prop :=
  ∀ r, r < m → ∀ c, c < i → c < r → st.L r c = 0

/-- The pivots checked so far are nonzero (they are never overwritten by
later forward steps). -/
def PivotsNZ (i : ℕ) (st : GE) : Prop :=
  ∀ r, r < i → st.L r r ≠ 0

/-- Invariant of the forward-elimination loop before step `i`. -/
def FwdInv (m : ℕ) (A : Mat) (i : ℕ) (st : GE) : Prop :=
  ProdInv m A st ∧ LowerZero m i st ∧ PivotsNZ i st

/-- Invariant of the back-substitution loop when rows `j, …, m−1` have been
processed: processed rows of the left half are identity rows; unprocessed
rows are upper triangular with zeros in the processed columns and nonzero
diagonal. -/
def BackInv (m : ℕ) (A : Mat) (j : ℕ) (st : GE) : Prop :=
  ProdInv m A st ∧
  (∀ r, r < m → j ≤ r → ∀ c, c < m → st.L r c = if r = c then 1 else 0) ∧
  (∀ r, r < m → r < j →
    (∀ c, c < r → st.L r c = 0) ∧ (∀ c, c < m → j ≤ c → st.L r c = 0)) ∧
  (∀ r, r < j → st.L r r ≠ 0)

/-- The diagonal pivot sequence produced by forward elimination on the
tridiagonal matrix: `a 0 = 4`, `a (k+1) = 4 − 1 / a k`; it stays in
`[7/2, 4]`, far above the `1e-10` singularity threshold. -/
def pivotSeq : ℕ → ℚ
  | 0 => 4
  | k + 1 => 4 - 1 / pivotSeq k

/-- State of forward elimination on the tridiagonal matrix before step
`i`: row `i` is `(…, 0, a i, 1, 0, …)` and the rows below are untouched. -/
def TriInv (m i : ℕ) (st : GE) : Prop :=
  (∀ c, c < m → st.L i c = if c = i then pivotSeq i else if c = i + 1 then 1 else 0) ∧
  (∀ r, r < m → i < r → ∀ c, c < m → st.L r c = triC m r c)

/-- A chunk of a stroke: the window `[startIndex, endIndex)` and the sliced
points (`ChunkedBezierStrokeManager.createChunks` chunk object). -/
structure Chunk where
  startIndex : ℕ
  endIndex : ℕ
  points : List Point3
deriving DecidableEq, Repr

instance : Inhabited Chunk := ⟨⟨0, 0, []⟩⟩

/-- `this.chunkSize = 12` (points per chunk). -/
def chunkSize : ℕ := 12

/-- `this.chunkOverlap = 3` (overlap between chunks for continuity). -/
def chunkOverlap : ℕ := 3

/-- The `while (startIdx < points.length)` loop of `createChunks`, started
at `startIdx`: take the window `[startIdx, min(startIdx + chunkSize, len))`
(`points.slice`), emit it if it has at least 4 points, stop if the window
reached the end of the list, else continue from `endIdx - chunkOverlap`. -/
def createChunksFrom (points : List Point3) (startIdx : ℕ) : List Chunk :=
  if h : startIdx < points.length then
    let endIdx := min (startIdx + chunkSize) points.length
    let chunkPoints := (points.drop startIdx).take (endIdx - startIdx)
    let rest :=
      if h2 : points.length ≤ endIdx then []
      else createChunksFrom points (endIdx - chunkOverlap)
    if 4 ≤ chunkPoints.length then ⟨startIdx, endIdx, chunkPoints⟩ :: rest else rest
  else []
termination_by points.length - startIdx
decreasing_by
  have h3 : (startIdx + chunkSize) ⊓ points.length = startIdx + chunkSize := by
    rcases le_total (startIdx + chunkSize) points.length with hle | hle
    · exact inf_eq_left.mpr hle
    · exact absurd (inf_eq_right.mpr hle ▸ le_refl points.length) h2
  rw [h3]
  unfold chunkSize chunkOverlap
  omega

/-- `ChunkedBezierStrokeManager.createChunks(points)`. -/
def createChunks (points : List Point3) : List Chunk := createChunksFrom points 0

/-- `this.baseSubdivisions = 20`. -/
def baseSubdivisions : ℕ := 20

/-- `this.maxSubdivisions = 200`. -/
def maxSubdivisions : ℕ := 200

/-- JS `Math.round` on a finite number: round half up. -/
def jsRound (x : ℚ) : ℤ := Int.floor (x + 1 / 2)

/-- `calculateSubdivisions()`: the camera is modeled as `none` (absent) or
`some (top, bottom)` of an orthographic frustum.  The result is clamped to
`[baseSubdivisions, maxSubdivisions]`, so it is a positive natural. -/
def calculateSubdivisions (camera : Option (ℚ × ℚ)) : ℕ :=
  match camera with
  | none => baseSubdivisions
  | some (top, bottom) =>
    let viewHeight := top - bottom
    let defaultViewHeight : ℚ := 3
    let zoomFactor := defaultViewHeight / viewHeight
    let subdivisions :=
      jsRound ((baseSubdivisions : ℚ) *
        min zoomFactor ((maxSubdivisions : ℚ) / (baseSubdivisions : ℚ)))
    (max (baseSubdivisions : ℤ) (min subdivisions (maxSubdivisions : ℤ))).toNat

/-- The GPU-facing attribute streams built by `createChunkGeometry` (a
`THREE.BufferGeometry`): each vertex contributes 3 entries to `positions`,
`cp1Array`, `cp2Array` and `endArray`, 1 entry to `segmentTArray` and
`isEndCapArray`, and 2 entries to `uvs`. -/
structure ChunkGeometry where
  positions : List ℚ
  cp1Array : List ℚ
  cp2Array : List ℚ
  endArray : List ℚ
  segmentTArray : List ℚ
  isEndCapArray : List ℚ
  uvs : List ℚ
  indices : List ℕ
deriving DecidableEq, Repr

instance : Inhabited ChunkGeometry := ⟨⟨[], [], [], [], [], [], [], []⟩⟩

/-- The three floats pushed for one vertex of a 3-component attribute. -/
def tripleList (p : Point3) : List ℚ := [p.x, p.y, p.z]

/-- The curve parameter `t = i / (subdivisionsPerSegment - 1)`. -/
def tVal (subs i : ℕ) : ℚ := (i : ℚ) / ((subs : ℚ) - 1)

/-- Ribbon-body stream of a 3-component attribute: per segment, per
subdivision step, the side loop pushes the same point twice. -/
def bodyAttr3 (segments : List BezierQuadruple) (subs : ℕ)
    (f : BezierQuadruple → Point3) : List ℚ :=
  segments.flatMap fun seg => (List.range subs).flatMap fun _ =>
    tripleList (f seg) ++ tripleList (f seg)

/-- Ribbon-body `segmentT` stream: `t` pushed once per side. -/
def bodyTs (segments : List BezierQuadruple) (subs : ℕ) : List ℚ :=
  segments.flatMap fun _ => (List.range subs).flatMap fun i =>
    [tVal subs i, tVal subs i]

/-- Ribbon-body `isEndCap` stream: `0.0` per vertex. -/
def bodyFlags (segments : List BezierQuadruple) (subs : ℕ) : List ℚ :=
  segments.flatMap fun _ => (List.range subs).flatMap fun _ => [0, 0]

/-- Ribbon-body `uv` stream: `(side, t)` for side 0 then side 1. -/
def bodyUVs (segments : List BezierQuadruple) (subs : ℕ) : List ℚ :=
  segments.flatMap fun _ => (List.range subs).flatMap fun i =>
    [0, tVal subs i, 1, tVal subs i]

/-- Index list of one segment whose first vertex is `base`: for each
subdivision step `i < subs - 1`, two triangles
`(base+2i, base+2i+1, base+2i+2)` and `(base+2i+1, base+2i+3, base+2i+2)`. -/
def segIndices (subs base : ℕ) : List ℕ :=
  (List.range subs).flatMap fun i =>
    if i < subs - 1 then
      [base + i * 2, base + i * 2 + 1, base + i * 2 + 2,
       base + i * 2 + 1, base + i * 2 + 3, base + i * 2 + 2]
    else []

/-- Ribbon-body index stream: segment `s` starts at vertex `s * subs * 2`. -/
def bodyIndices (numSegments subs : ℕ) : List ℕ :=
  (List.range numSegments).flatMap fun s => segIndices subs (s * (subs * 2))

/-- `addEndCap`: positions pushed for a cap — four copies of the cap
center (or nothing when the cap position is null). -/
def capPositions : Option Point3 → List ℚ
  | none => []
  | some p => tripleList p ++ tripleList p ++ tripleList p ++ tripleList p

/-- `addEndCap`: the `(0,0,0)` control-point fillers — 12 zeros per cap. -/
def capZeros : Option Point3 → List ℚ
  | none => []
  | some _ => List.replicate 12 0

/-- `addEndCap`: `segmentT` fillers — 4 zeros per cap. -/
def capTs : Option Point3 → List ℚ
  | none => []
  | some _ => [0, 0, 0, 0]

/-- `addEndCap`: `isEndCap` flags — 4 ones per cap. -/
def capFlags : Option Point3 → List ℚ
  | none => []
  | some _ => [1, 1, 1, 1]

/-- `addEndCap`: the UV corners `(0,0), (1,0), (1,1), (0,1)`. -/
def capUVs : Option Point3 → List ℚ
  | none => []
  | some _ => [0, 0, 1, 0, 1, 1, 0, 1]

/-- `addEndCap`: the two cap triangles based at `base`. -/
def capIdxList (base : ℕ) : Option Point3 → List ℕ
  | none => []
  | some _ => [base, base + 1, base + 2, base, base + 2, base + 3]

/-- Vertices a cap contributes (4, or 0 when absent). -/
def capCount : Option Point3 → ℕ
  | none => 0
  | some _ => 4

/-- 1 when a cap is attached, 0 when not. -/
def capsPresent : Option Point3 → ℕ
  | none => 0
  | some _ => 1

/-- `createChunkGeometry(segments, startCapPosition, endCapPosition, width)`
at a given subdivision count (the source reads it from
`calculateSubdivisions()` at entry; `width` does not enter the geometry).
The ribbon body comes first — `vertexIndex` then equals
`segments.length * subs * 2` — followed by the start cap and the end cap. -/
def createChunkGeometry (segments : List BezierQuadruple)
    (startCapPosition endCapPosition : Option Point3) (subs : ℕ) : ChunkGeometry :=
  let bodyV := segments.length * (subs * 2)
  { positions := bodyAttr3 segments subs (fun s => s.p0) ++
      capPositions startCapPosition ++ capPositions endCapPosition
    cp1Array := bodyAttr3 segments subs (fun s => s.p1) ++
      capZeros startCapPosition ++ capZeros endCapPosition
    cp2Array := bodyAttr3 segments subs (fun s => s.p2) ++
      capZeros startCapPosition ++ capZeros endCapPosition
    endArray := bodyAttr3 segments subs (fun s => s.p3) ++
      capZeros startCapPosition ++ capZeros endCapPosition
    segmentTArray := bodyTs segments subs ++ capTs startCapPosition ++ capTs endCapPosition
    isEndCapArray := bodyFlags segments subs ++ capFlags startCapPosition ++ capFlags endCapPosition
    uvs := bodyUVs segments subs ++ capUVs startCapPosition ++ capUVs endCapPosition
    indices := bodyIndices segments.length subs ++ capIdxList bodyV startCapPosition ++
      capIdxList (bodyV + capCount startCapPosition) endCapPosition }

/-- A finalized stroke as assembled by
`ChunkedBezierStrokeManager.createStroke` (scene-graph state — material,
colour, parent container, debug marker meshes — is outside the model; a
mesh is represented by its geometry). -/
structure Stroke where
  points : List Point3
  meshes : List ChunkGeometry
  segmentCount : ℕ
  isComplete : Bool
  width : ℚ
deriving DecidableEq, Repr

/-- One iteration of the `chunks.forEach((chunk, index) => ...)` loop of
`createStroke`: fit the chunk; if the fit is non-empty, attach a start cap
(only at chunk index 0, anchored at `points[0]`) and an end cap (only at
the last chunk index, anchored at `points[points.length - 1]`), build the
chunk mesh and accumulate it together with the segment count. -/
def strokeFoldStep (points : List Point3) (chunksLen subs : ℕ)
    (acc : List ChunkGeometry × ℕ) (p : ℕ × Chunk) : List ChunkGeometry × ℕ :=
  let chunkSegments := createSegment p.2.points
  if 0 < chunkSegments.length then
    let startCapPosition := if p.1 = 0 then some (pt points 0) else none
    let endCapPosition :=
      if p.1 = chunksLen - 1 then some (pt points (points.length - 1)) else none
    (acc.1 ++ [createChunkGeometry chunkSegments startCapPosition endCapPosition subs],
      acc.2 + chunkSegments.length)
  else acc

/-- `ChunkedBezierStrokeManager.createStroke(points, options)`.  Under 4
points it warns and returns null (`.ok none`).  Otherwise it chunks,
fits and meshes every chunk, marks the stroke complete — and then, if
`options.debugMode` is set, calls `addDebugPoints`, whose body evaluates
the identifier `zIndex` (`sphere.renderOrder = zIndex + 0.1`) which is
bound nowhere in the module: that is a ReferenceError, modeled as
`.error ()`. -/
def createStroke (points : List Point3) (width : ℚ) (debugMode : Bool)
    (camera : Option (ℚ × ℚ)) : Except Unit (Option Stroke) :=
  if points.length < 4 then .ok none
  else
    let chunks := createChunks points
    let subs := calculateSubdivisions camera
    let acc := chunks.enum.foldl (strokeFoldStep points chunks.length subs) ([], 0)
    let stroke : Stroke := ⟨points, acc.1, acc.2, true, width⟩
    if debugMode then .error () else .ok (some stroke)

/-- One iteration of the rebuild loop of `StrokeManager.updateStrokeGeometry`
(part of the stroke store): identical cap logic to `createStroke`, but only
the mesh list is accumulated (`segmentCount` is not updated there). -/
def rebuildFoldStep (points : List Point3) (chunksLen subs : ℕ)
    (acc : List ChunkGeometry) (p : ℕ × Chunk) : List ChunkGeometry :=
  let chunkSegments := createSegment p.2.points
  if 0 < chunkSegments.length then
    let startCapPosition := if p.1 = 0 then some (pt points 0) else none
    let endCapPosition :=
      if p.1 = chunksLen - 1 then some (pt points (points.length - 1)) else none
    acc ++ [createChunkGeometry chunkSegments startCapPosition endCapPosition subs]
  else acc

/-- `StrokeManager.updateStrokeGeometry(stroke)`: dispose the old meshes
(a GPU effect outside the model) and rebuild them from `stroke.points`
with the same chunking and cap logic as `createStroke`. -/
def updateStrokeGeometry (stroke : Stroke) (camera : Option (ℚ × ℚ)) : Stroke :=
  let chunks := createChunks stroke.points
  let subs := calculateSubdivisions camera
  let meshes := chunks.enum.foldl (rebuildFoldStep stroke.points chunks.length subs) []
  { stroke with meshes := meshes }

/-- `this.smoothingWindowSize = 3`. -/
def smoothingWindowSize : ℕ := 3

/-- `StrokeRenderer.smoothPoints(points)`: centered moving average with a
window of `smoothingWindowSize`, shrunk at the array boundaries
(`start = max(0, i - halfWindow)` is natural subtraction here,
`end = min(points.length - 1, i + halfWindow)`), with the first and last
point always preserved exactly; inputs shorter than 3 (or with smoothing
disabled) are returned unchanged. -/
def smoothPoints (enableSmoothing : Bool) (points : List Point3) : List Point3 :=
  if enableSmoothing = false ∨ points.length < 3 then points
  else
    let halfWindow := smoothingWindowSize / 2
    (List.range points.length).map fun i =>
      if i = 0 ∨ i = points.length - 1 then pt points i
      else
        let start := i - halfWindow
        let stop := min (points.length - 1) (i + halfWindow)
        let count : ℚ := ((stop + 1 - start : ℕ) : ℚ)
        ⟨(((List.range' start (stop + 1 - start)).map fun j => (pt points j).x).sum) / count,
         (((List.range' start (stop + 1 - start)).map fun j => (pt points j).y).sum) / count,
         (((List.range' start (stop + 1 - start)).map fun j => (pt points j).z).sum) / count⟩

/-- Squared Euclidean distance; the source compares
`lastKept.distanceTo(p) >= minDistance` which, for the nonnegative
thresholds in use, is equivalent to `minDistance^2 ≤ dist2`. -/
def dist2 (a b : Point3) : ℚ :=
  (a.x - b.x) ^ 2 + (a.y - b.y) ^ 2 + (a.z - b.z) ^ 2

/-- The default `minDistance = 0.003` of `filterDensePoints`. -/
def minDistanceDefault : ℚ := 3 / 1000

/-- The loop body of `filterDensePoints`: keep the candidate point only if
it is far enough from the last kept point. -/
def densStep (minDistance : ℚ) (acc : List Point3) (p : Point3) : List Point3 :=
  if minDistance ^ 2 ≤ dist2 (acc.getLastD pOrigin) p then acc ++ [p] else acc

/-- `filterDensePoints(points, minDistance)`: inputs shorter than 2 are
returned unchanged; otherwise the first point is always kept, each
interior point (`i ∈ [1, len−1)`) is kept only when far enough from the
last kept point, and the last point is always appended. -/
def filterDensePoints (minDistance : ℚ) (points : List Point3) : List Point3 :=
  if points.length < 2 then points
  else
    let filtered := ((points.drop 1).dropLast).foldl (densStep minDistance) [pt points 0]
    filtered ++ [points.getLastD pOrigin]

/-- Tangent estimate of `StrokeRenderer.updateLineGeometry` at point `i`:
forward difference at the first point, backward difference at the last,
sum of the incoming and outgoing differences in the middle. -/
def tangentAt (points : List Point3) (i : ℕ) : ℚ × ℚ :=
  if i = 0 then
    ((pt points (i + 1)).x - (pt points i).x, (pt points (i + 1)).y - (pt points i).y)
  else if i = points.length - 1 then
    ((pt points i).x - (pt points (i - 1)).x, (pt points i).y - (pt points (i - 1)).y)
  else
    (((pt points i).x - (pt points (i - 1)).x) + ((pt points (i + 1)).x - (pt points i).x),
     ((pt points i).y - (pt points (i - 1)).y) + ((pt points (i + 1)).y - (pt points i).y))

/-- The normalisation step of `updateLineGeometry`:
`length = sqrt(t.x² + t.y²)`, and the division happens only under the
guard `length > 0`.  The square root is not rational, so it is taken as an
explicit function parameter standing for `Math.sqrt`. -/
def normalizeTangent (sqrtFn : ℚ → ℚ) (t : ℚ × ℚ) : ℚ × ℚ :=
  let length := sqrtFn (t.1 * t.1 + t.2 * t.2)
  if 0 < length then (t.1 / length, t.2 / length) else t

/-- The six position floats `point ± normal * halfWidth` (with z carried
through) that `updateLineGeometry` pushes for point `i`, where
`normal = (-tangent.y, tangent.x)` rotates the normalised tangent by 90°. -/
def ribbonPair (sqrtFn : ℚ → ℚ) (halfWidth : ℚ) (points : List Point3) (i : ℕ) : List ℚ :=
  let p := pt points i
  let tang := normalizeTangent sqrtFn (tangentAt points i)
  let normal : ℚ × ℚ := (-tang.2, tang.1)
  [p.x + normal.1 * halfWidth, p.y + normal.2 * halfWidth, p.z,
   p.x - normal.1 * halfWidth, p.y - normal.2 * halfWidth, p.z]

/-- The position stream of `StrokeRenderer.updateLineGeometry`: nothing
under 1 point, a small fan for a single point (its construction uses
`cos`/`sin` of `2π·i/8` and is abstracted as the `fan` parameter; no claim
concerns it), else two ribbon vertices per point. -/
def updateLineGeometryPositions (sqrtFn : ℚ → ℚ) (fan : Point3 → List ℚ)
    (halfWidth : ℚ) (points : List Point3) : List ℚ :=
  if points.length < 1 then []
  else if points.length = 1 then fan (pt points 0)
  else (List.range points.length).flatMap fun i => ribbonPair sqrtFn halfWidth points i

/-! ### List counting helpers -/

theorem length_flatMap_const {α β : Type} (l : List α) (f : α → List β) (k : ℕ)
    (h : ∀ a ∈ l, (f a).length = k) : (l.flatMap f).length = l.length * k := by
  induction l with
  | nil => simp
  | cons a t ih =>
    have ha := h a (by simp)
    have ht := ih fun x hx => h x (by simp [hx])
    simp only [List.flatMap_cons, List.length_append, List.length_cons, ha, ht]
    ring

theorem length_flatMap_range_cut {β : Type} (n k : ℕ) (f : ℕ → List β)
    (h1 : ∀ i, i < n - 1 → (f i).length = k) (h2 : ∀ i, n - 1 ≤ i → (f i).length = 0) :
    ((List.range n).flatMap f).length = (n - 1) * k := by
  rcases n with _ | m
  · simp
  · rw [List.range_succ, List.flatMap_append]
    simp only [List.flatMap_cons, List.flatMap_nil, List.append_nil, List.length_append]
    rw [length_flatMap_const _ _ k fun a ha => h1 a (by simp at ha; omega)]
    rw [h2 m (by omega)]
    simp [List.length_range]

theorem bodyAttr3_length (segments : List BezierQuadruple) (subs : ℕ)
    (f : BezierQuadruple → Point3) :
    (bodyAttr3 segments subs f).length = segments.length * (subs * 6) := by
  unfold bodyAttr3
  refine length_flatMap_const _ _ _ fun seg _ => ?_
  have h6 := length_flatMap_const (List.range subs)
    (fun _ => tripleList (f seg) ++ tripleList (f seg)) 6 fun i _ => by simp [tripleList]
  rw [h6]
  simp [List.length_range]

theorem bodyFlags_length (segments : List BezierQuadruple) (subs : ℕ) :
    (bodyFlags segments subs).length = segments.length * (subs * 2) := by
  unfold bodyFlags
  refine length_flatMap_const _ _ _ fun seg _ => ?_
  have h2 := length_flatMap_const (List.range subs)
    (fun _ => ([0, 0] : List ℚ)) 2 fun i _ => rfl
  rw [h2]
  simp [List.length_range]

theorem segIndices_length (subs base : ℕ) :
    (segIndices subs base).length = (subs - 1) * 6 := by
  unfold segIndices
  refine length_flatMap_range_cut subs 6 _ (fun i hi => ?_) (fun i hi => ?_)
  · rw [if_pos hi]; rfl
  · rw [if_neg (by omega)]; rfl

theorem bodyIndices_length (numSegments subs : ℕ) :
    (bodyIndices numSegments subs).length = numSegments * ((subs - 1) * 6) := by
  unfold bodyIndices
  rw [length_flatMap_const _ _ ((subs - 1) * 6) fun s _ => segIndices_length subs _]
  simp [List.length_range]

theorem capPositions_length (o : Option Point3) :
    (capPositions o).length = 12 * capsPresent o := by
  cases o <;> rfl

theorem capFlags_length (o : Option Point3) :
    (capFlags o).length = 4 * capsPresent o := by
  cases o <;> rfl

theorem capIdxList_length (base : ℕ) (o : Option Point3) :
    (capIdxList base o).length = 6 * capsPresent o := by
  cases o <;> rfl

/-- Claim C5 (amended): for a chunk geometry built from `S` segments at a
given `subdivisions` count, the vertex count is `S * subdivisions * 2`
plus 4 per attached end cap (seen both in the per-vertex `isEndCap` stream
and in the position stream, which holds 3 floats per vertex), and the
index count is `S * (subdivisions - 1) * 6` plus 6 per attached end cap
(each cap closes its quad with two extra triangles). -/
theorem c5_vertex_count_law (segments : List BezierQuadruple)
    (startCap endCap : Option Point3) (subs : ℕ) :
    (createChunkGeometry segments startCap endCap subs).isEndCapArray.length
        = segments.length * subs * 2 + 4 * (capsPresent startCap + capsPresent endCap) ∧
    (createChunkGeometry segments startCap endCap subs).positions.length
        = 3 * (segments.length * subs * 2 + 4 * (capsPresent startCap + capsPresent endCap)) ∧
    (createChunkGeometry segments startCap endCap subs).indices.length
        = segments.length * (subs - 1) * 6 + 6 * (capsPresent startCap + capsPresent endCap) := by
  unfold createChunkGeometry
  refine ⟨?_, ?_, ?_⟩
  · simp only [List.length_append, bodyFlags_length, capFlags_length]
    ring
  · simp only [List.length_append, bodyAttr3_length, capPositions_length]
    ring
  · simp only [List.length_append, bodyIndices_length, capIdxList_length]
    ring

/-- Claim C5, as stated, is false: one segment at 3 subdivisions with a
start cap attached yields 18 indices (12 for the ribbon plus 6 for the cap
quad), not `S * (subdivisions - 1) * 6 = 12`. -/
theorem c5_index_count_counterexample :
    ¬ ((createChunkGeometry [⟨⟨0, 0, 0⟩, ⟨1, 0, 0⟩, ⟨2, 0, 0⟩, ⟨3, 0, 0⟩⟩]
        (some ⟨5, 6, 7⟩) none 3).indices.length = 1 * (3 - 1) * 6) := by
  decide

/-! ### Chunker lemmas -/

theorem chain_imp_of_mem {A : Type} {R S : A → A → Prop} :
    ∀ l : List A, List.Chain' R l → (∀ a b, a ∈ l → b ∈ l → R a b → S a b) →
      List.Chain' S l
  | [], _, _ => List.chain'_nil
  | [_], _, _ => List.chain'_singleton _
  | a :: b :: t, hc, himp => by
    rw [List.chain'_cons] at hc ⊢
    refine ⟨himp a b (by simp) (by simp) hc.1, ?_⟩
    exact chain_imp_of_mem (b :: t) hc.2 fun x y hx hy =>
      himp x y (List.mem_cons_of_mem a hx) (List.mem_cons_of_mem a hy)

theorem createChunksFrom_step (points : List Point3) (s : ℕ) (h : s + 4 ≤ points.length) :
    createChunksFrom points s =
      ⟨s, min (s + chunkSize) points.length,
        (points.drop s).take (min (s + chunkSize) points.length - s)⟩ ::
      (if points.length ≤ s + chunkSize then []
       else createChunksFrom points (s + (chunkSize - chunkOverlap))) := by
  have hcs : chunkSize = 12 := rfl
  have hco : chunkOverlap = 3 := rfl
  have hm1 : min (s + chunkSize) points.length ≤ s + chunkSize := min_le_left _ _
  have hm2 : min (s + chunkSize) points.length ≤ points.length := min_le_right _ _
  have hm3 : s + 4 ≤ min (s + chunkSize) points.length := le_min (by omega) h
  rw [createChunksFrom]
  rw [dif_pos (show s < points.length by omega)]
  show (if 4 ≤ ((points.drop s).take (min (s + chunkSize) points.length - s)).length then
      (⟨s, min (s + chunkSize) points.length,
        (points.drop s).take (min (s + chunkSize) points.length - s)⟩ : Chunk) ::
        (if _h2 : points.length ≤ min (s + chunkSize) points.length then []
         else createChunksFrom points (min (s + chunkSize) points.length - chunkOverlap))
    else (if _h2 : points.length ≤ min (s + chunkSize) points.length then []
         else createChunksFrom points (min (s + chunkSize) points.length - chunkOverlap))) = _
  have hlen : ((points.drop s).take (min (s + chunkSize) points.length - s)).length
      = min (s + chunkSize) points.length - s := by
    rw [List.length_take, List.length_drop]
    omega
  rw [if_pos (by omega)]
  by_cases hle : points.length ≤ s + chunkSize
  · rw [dif_pos (le_min hle (le_refl _)), if_pos hle]
  · have hnle : ¬ points.length ≤ min (s + chunkSize) points.length := by omega
    rw [dif_neg hnle, if_neg hle]
    rw [min_eq_left (by omega)]
    have harg : s + chunkSize - chunkOverlap = s + (chunkSize - chunkOverlap) := by omega
    rw [harg]

theorem chunksFrom_cover (points : List Point3) :
    ∀ d s, points.length - s = d → s + 4 ≤ points.length →
      ∀ idx, s ≤ idx → idx < points.length →
      ∃ c ∈ createChunksFrom points s, c.startIndex ≤ idx ∧ idx < c.endIndex := by
  have hcs : chunkSize = 12 := rfl
  have hco : chunkOverlap = 3 := rfl
  intro d
  induction d using Nat.strong_induction_on with
  | _ d ih =>
    intro s hd h idx h1 h2
    have hm1 : min (s + chunkSize) points.length ≤ s + chunkSize := min_le_left _ _
    have hm2 : min (s + chunkSize) points.length ≤ points.length := min_le_right _ _
    have hm3 : s + 4 ≤ min (s + chunkSize) points.length := le_min (by omega) h
    rw [createChunksFrom_step points s h]
    by_cases hidx : idx < min (s + chunkSize) points.length
    · exact ⟨_, List.mem_cons_self _ _, h1, hidx⟩
    · have hle : ¬ points.length ≤ s + chunkSize := by
        intro hc
        have : min (s + chunkSize) points.length = points.length :=
          min_eq_right (by omega)
        omega
      have hmin : min (s + chunkSize) points.length = s + chunkSize :=
        min_eq_left (by omega)
      rw [if_neg hle]
      obtain ⟨c, hc, hc2⟩ := ih (points.length - (s + (chunkSize - chunkOverlap)))
        (by omega) (s + (chunkSize - chunkOverlap)) rfl (by omega) idx (by omega) h2
      exact ⟨c, List.mem_cons_of_mem _ hc, hc2⟩

theorem chunksFrom_shape (points : List Point3) :
    ∀ d s, points.length - s = d → s + 4 ≤ points.length →
      ∀ c ∈ createChunksFrom points s,
        c.startIndex < c.endIndex ∧ s ≤ c.startIndex ∧
        c.endIndex = min (c.startIndex + chunkSize) points.length ∧
        c.points = (points.drop c.startIndex).take (c.endIndex - c.startIndex) := by
  have hcs : chunkSize = 12 := rfl
  have hco : chunkOverlap = 3 := rfl
  intro d
  induction d using Nat.strong_induction_on with
  | _ d ih =>
    intro s hd h c hc
    have hm3 : s + 4 ≤ min (s + chunkSize) points.length := le_min (by omega) h
    rw [createChunksFrom_step points s h] at hc
    rcases List.mem_cons.mp hc with hc1 | hc1
    · subst hc1
      exact ⟨by simp only; omega, le_refl s, rfl, rfl⟩
    · by_cases hle : points.length ≤ s + chunkSize
      · rw [if_pos hle] at hc1
        exact absurd hc1 (List.not_mem_nil c)
      · rw [if_neg hle] at hc1
        obtain ⟨g1, g2, g3, g4⟩ := ih (points.length - (s + (chunkSize - chunkOverlap)))
          (by omega) (s + (chunkSize - chunkOverlap)) rfl (by omega) c hc1
        exact ⟨g1, by omega, g3, g4⟩

theorem chunksFrom_chain (points : List Point3) :
    ∀ d s, points.length - s = d → s + 4 ≤ points.length →
      List.Chain' (fun c c2 =>
        c2.startIndex + chunkOverlap = c.endIndex ∧
        c.startIndex < c2.startIndex ∧ c.endIndex < c2.endIndex)
        (createChunksFrom points s) := by
  have hcs : chunkSize = 12 := rfl
  have hco : chunkOverlap = 3 := rfl
  intro d
  induction d using Nat.strong_induction_on with
  | _ d ih =>
    intro s hd h
    rw [createChunksFrom_step points s h]
    by_cases hle : points.length ≤ s + chunkSize
    · rw [if_pos hle]
      exact List.chain'_singleton _
    · rw [if_neg hle]
      have hrec := ih (points.length - (s + (chunkSize - chunkOverlap)))
        (by omega) (s + (chunkSize - chunkOverlap)) rfl (by omega)
      refine List.chain'_cons'.mpr ⟨?_, hrec⟩
      intro c2 hc2
      rw [createChunksFrom_step points _ (by omega)] at hc2
      simp only [List.head?_cons, Option.mem_def, Option.some.injEq] at hc2
      subst hc2
      have hm1 : min (s + chunkSize) points.length = s + chunkSize :=
        min_eq_left (by omega)
      have hm4 : s + chunkSize + 1 ≤
          min (s + (chunkSize - chunkOverlap) + chunkSize) points.length :=
        le_min (by omega) (by omega)
      refine ⟨by simp only; omega, by simp only; omega, by simp only; omega⟩

/-- Claim C3: for every point list with at least 4 points, `createChunks`
(window `chunkSize = 12`, overlap `chunkOverlap = 3`) emits windows
`[start, min(start + 12, len))` starting at 0, every input index lies in
at least one chunk, each pair of consecutive chunks shares exactly 3
point indices, and a 20-point list yields exactly the two chunks
`[0, 12)` and `[9, 20)`. -/
theorem c3_chunk_windows (points : List Point3) (h : 4 ≤ points.length) :
    (∃ c0 rest, createChunks points = c0 :: rest ∧ c0.startIndex = 0) ∧
    (∀ c ∈ createChunks points, c.startIndex < c.endIndex ∧
      c.endIndex = min (c.startIndex + chunkSize) points.length ∧
      c.points = (points.drop c.startIndex).take (c.endIndex - c.startIndex)) ∧
    (∀ idx, idx < points.length → ∃ c ∈ createChunks points,
      c.startIndex ≤ idx ∧ idx < c.endIndex) ∧
    List.Chain' (fun c c2 =>
      (Finset.Ico c.startIndex c.endIndex ∩ Finset.Ico c2.startIndex c2.endIndex).card =
        chunkOverlap) (createChunks points) ∧
    (points.length = 20 →
      (createChunks points).map (fun c => (c.startIndex, c.endIndex)) = [(0, 12), (9, 20)]) := by
  have hcs : chunkSize = 12 := rfl
  have hco : chunkOverlap = 3 := rfl
  have h4 : (0 : ℕ) + 4 ≤ points.length := by omega
  refine ⟨?_, ?_, ?_, ?_, ?_⟩
  · exact ⟨_, _, createChunksFrom_step points 0 h4, rfl⟩
  · intro c hc
    obtain ⟨g1, _, g3, g4⟩ := chunksFrom_shape points (points.length - 0) 0 rfl h4 c hc
    exact ⟨g1, g3, g4⟩
  · intro idx hidx
    exact chunksFrom_cover points (points.length - 0) 0 rfl h4 idx (Nat.zero_le idx) hidx
  · have hch := chunksFrom_chain points (points.length - 0) 0 rfl h4
    refine chain_imp_of_mem _ hch ?_
    intro c c2 hc hc2 hrel
    obtain ⟨r1, r2, r3⟩ := hrel
    obtain ⟨s1, _, s3, _⟩ := chunksFrom_shape points (points.length - 0) 0 rfl h4 c hc
    obtain ⟨t1, _, t3, _⟩ := chunksFrom_shape points (points.length - 0) 0 rfl h4 c2 hc2
    rw [Finset.Ico_inter_Ico]
    have hmm1 : min (c.startIndex + chunkSize) points.length ≤ c.startIndex + chunkSize :=
      min_le_left _ _
    have hmax : max c.startIndex c2.startIndex = c2.startIndex := max_eq_right (by omega)
    have hmin : min c.endIndex c2.endIndex = c.endIndex := min_eq_left (by omega)
    rw [hmax, hmin, Nat.card_Ico]
    omega
  · intro h20
    rw [createChunks, createChunksFrom_step points 0 (by omega)]
    rw [if_neg (by omega)]
    rw [createChunksFrom_step points (0 + (chunkSize - chunkOverlap)) (by omega)]
    rw [if_pos (by omega)]
    simp only [List.map_cons, List.map_nil]
    rw [hcs, hco] at *
    rw [h20]
    norm_num

/-! ### Point-filter lemmas -/

theorem densFold_ext (d : ℚ) :
    ∀ (l : List Point3) (acc : List Point3),
      ∃ s, List.foldl (densStep d) acc l = acc ++ s := by
  intro l
  induction l with
  | nil => exact fun acc => ⟨[], by simp⟩
  | cons p t ih =>
    intro acc
    rw [List.foldl_cons]
    by_cases hg : d ^ 2 ≤ dist2 (acc.getLastD pOrigin) p
    · rw [show densStep d acc p = acc ++ [p] by rw [densStep, if_pos hg]]
      obtain ⟨s, hs⟩ := ih (acc ++ [p])
      exact ⟨[p] ++ s, by rw [hs, List.append_assoc]⟩
    · rw [show densStep d acc p = acc by rw [densStep, if_neg hg]]
      exact ih acc

theorem getLastD_of_getLast? {l : List Point3} {x : Point3} (h : l.getLast? = some x) :
    l.getLastD pOrigin = x := by
  rw [List.getLastD_eq_getLast?, h]
  rfl

theorem densFold_chain (d : ℚ) :
    ∀ (l : List Point3) (acc : List Point3), acc ≠ [] →
      List.Chain' (fun a b => d ^ 2 ≤ dist2 a b) acc →
      List.Chain' (fun a b => d ^ 2 ≤ dist2 a b) (List.foldl (densStep d) acc l) := by
  intro l
  induction l with
  | nil => exact fun acc _ hc => hc
  | cons p t ih =>
    intro acc hne hc
    rw [List.foldl_cons]
    by_cases hg : d ^ 2 ≤ dist2 (acc.getLastD pOrigin) p
    · rw [show densStep d acc p = acc ++ [p] by rw [densStep, if_pos hg]]
      refine ih (acc ++ [p]) (by simp) ?_
      refine List.Chain'.append hc (List.chain'_singleton p) ?_
      intro x hx y hy
      simp only [List.head?_cons, Option.mem_def, Option.some.injEq] at hy
      subst hy
      rw [getLastD_of_getLast? hx] at hg
      exact hg
    · rw [show densStep d acc p = acc by rw [densStep, if_neg hg]]
      exact ih acc hne hc

theorem densFold_keepAll (d : ℚ) :
    ∀ (l : List Point3) (acc : List Point3), acc ≠ [] →
      List.Chain' (fun a b => d ^ 2 ≤ dist2 a b) (acc.getLastD pOrigin :: l) →
      List.foldl (densStep d) acc l = acc ++ l := by
  intro l
  induction l with
  | nil => exact fun acc _ _ => by simp
  | cons p t ih =>
    intro acc hne hc
    rw [List.chain'_cons] at hc
    rw [List.foldl_cons]
    rw [show densStep d acc p = acc ++ [p] by rw [densStep, if_pos hc.1]]
    have hlast : (acc ++ [p]).getLastD pOrigin = p := by
      rw [List.getLastD_eq_getLast?, List.getLast?_concat]
      rfl
    rw [ih (acc ++ [p]) (by simp) (by rw [hlast]; exact hc.2)]
    rw [List.append_assoc]
    rfl

/-- Claim C6 (amended): `filterDensePoints` is idempotent; the moving
average `smoothPoints` is not (see the counterexample), so only the
density filter satisfies the claimed equation. -/
theorem c6_filter_dense_idempotent (d : ℚ) (points : List Point3) :
    filterDensePoints d (filterDensePoints d points) = filterDensePoints d points := by
  by_cases h2 : points.length < 2
  · have h1 : filterDensePoints d points = points := by
      rw [filterDensePoints, if_pos h2]
    rw [h1]
    exact h1
  · have h1 : filterDensePoints d points =
        List.foldl (densStep d) [pt points 0] ((points.drop 1).dropLast) ++
          [points.getLastD pOrigin] := by
      rw [filterDensePoints, if_neg h2]
    obtain ⟨s, hs⟩ := densFold_ext d ((points.drop 1).dropLast) [pt points 0]
    have hchain : List.Chain' (fun a b => d ^ 2 ≤ dist2 a b) (pt points 0 :: s) := by
      have := densFold_chain d ((points.drop 1).dropLast) [pt points 0]
        (by simp) (List.chain'_singleton _)
      rw [hs] at this
      exact this
    have hq : filterDensePoints d points =
        pt points 0 :: (s ++ [points.getLastD pOrigin]) := by
      rw [h1, hs]
      simp
    rw [hq]
    rw [filterDensePoints]
    rw [if_neg (by simp)]
    have hdrop : ((pt points 0 :: (s ++ [points.getLastD pOrigin])).drop 1).dropLast = s := by
      simp only [List.drop_succ_cons, List.drop_zero]
      exact List.dropLast_concat
    rw [hdrop]
    have hpt0 : pt (pt points 0 :: (s ++ [points.getLastD pOrigin])) 0 = pt points 0 := by
      simp [pt]
    rw [hpt0]
    have hfold : List.foldl (densStep d) [pt points 0] s = [pt points 0] ++ s := by
      refine densFold_keepAll d s [pt points 0] (by simp) ?_
      simpa using hchain
    rw [hfold]
    have hlastq : (pt points 0 :: (s ++ [points.getLastD pOrigin])).getLastD pOrigin
        = points.getLastD pOrigin := by
      rw [List.getLastD_eq_getLast?]
      rw [show pt points 0 :: (s ++ [points.getLastD pOrigin])
          = (pt points 0 :: s) ++ [points.getLastD pOrigin] by simp]
      rw [List.getLast?_concat]
      rfl
    rw [hlastq]
    simp

/-- Claim C6 counterexample: the centered moving average is not
idempotent — on the x-coordinates `[0, 3, 0]` one pass gives `[0, 1, 0]`
and a second pass gives `[0, 1/3, 0]`. -/
theorem c6_smooth_not_idempotent :
    ¬ (smoothPoints true (smoothPoints true [⟨0, 0, 0⟩, ⟨3, 0, 0⟩, ⟨0, 0, 0⟩]) =
       smoothPoints true [⟨0, 0, 0⟩, ⟨3, 0, 0⟩, ⟨0, 0, 0⟩]) := by
  have e1 : smoothPoints true [⟨0, 0, 0⟩, ⟨3, 0, 0⟩, ⟨0, 0, 0⟩]
      = [⟨0, 0, 0⟩, ⟨1, 0, 0⟩, ⟨0, 0, 0⟩] := by
    rw [smoothPoints]
    norm_num [pt, smoothingWindowSize, List.range_succ,
      show List.range' 0 3 = [0, 1, 2] from rfl]
  have e2 : smoothPoints true [⟨0, 0, 0⟩, ⟨1, 0, 0⟩, ⟨0, 0, 0⟩]
      = [⟨0, 0, 0⟩, ⟨1 / 3, 0, 0⟩, ⟨0, 0, 0⟩] := by
    rw [smoothPoints]
    norm_num [pt, smoothingWindowSize, List.range_succ,
      show List.range' 0 3 = [0, 1, 2] from rfl]
  rw [e1, e2]
  intro h
  simp only [List.cons.injEq, Point3.mk.injEq] at h
  norm_num at h

theorem smoothPoints_map_form (enable : Bool) (points : List Point3)
    (hs : ¬ (enable = false ∨ points.length < 3)) :
    ∃ f : ℕ → Point3, smoothPoints enable points = (List.range points.length).map f ∧
      f 0 = pt points 0 ∧ f (points.length - 1) = pt points (points.length - 1) := by
  rw [smoothPoints, if_neg hs]
  refine ⟨_, rfl, ?_, ?_⟩
  · rw [if_pos (Or.inl rfl)]
  · rw [if_pos (Or.inr rfl)]

theorem filterDense_form (d : ℚ) (points : List Point3)
    (hf : ¬ points.length < 2) :
    ∃ s, filterDensePoints d points = pt points 0 :: (s ++ [points.getLastD pOrigin]) := by
  obtain ⟨s, hs⟩ := densFold_ext d ((points.drop 1).dropLast) [pt points 0]
  refine ⟨s, ?_⟩
  rw [filterDensePoints, if_neg hf, hs]
  simp

/-- Claim C8: both point filters preserve the sequence endpoints — the
first and last entries of `smoothPoints` and `filterDensePoints` agree
with those of the input — and on inputs of length at least 2 both outputs
again have length at least 2. -/
theorem c8_filters_preserve_endpoints (enable : Bool) (d : ℚ) (points : List Point3) :
    (smoothPoints enable points).head? = points.head? ∧
    (smoothPoints enable points).getLast? = points.getLast? ∧
    (filterDensePoints d points).head? = points.head? ∧
    (filterDensePoints d points).getLast? = points.getLast? ∧
    (2 ≤ points.length →
      2 ≤ (smoothPoints enable points).length ∧ 2 ≤ (filterDensePoints d points).length) := by
  have hsmooth : (smoothPoints enable points).head? = points.head? ∧
      (smoothPoints enable points).getLast? = points.getLast? ∧
      (smoothPoints enable points).length = points.length := by
    by_cases hs : enable = false ∨ points.length < 3
    · rw [smoothPoints, if_pos hs]
      exact ⟨rfl, rfl, rfl⟩
    · obtain ⟨f, hf, hf0, hfl⟩ := smoothPoints_map_form enable points hs
      have hlen3 : 3 ≤ points.length := by omega
      have hlen : (smoothPoints enable points).length = points.length := by
        rw [hf, List.length_map, List.length_range]
      refine ⟨?_, ?_, hlen⟩
      · rw [hf, List.head?_map, List.head?_eq_getElem?, List.getElem?_range (by omega),
          Option.map_some', hf0, List.head?_eq_getElem?,
          List.getElem?_eq_getElem (by omega), pt,
          List.getD_eq_getElem points pOrigin (by omega)]
      · rw [hf, List.getLast?_eq_getElem?, List.length_map, List.length_range,
          List.getElem?_map, List.getElem?_range (by omega), Option.map_some', hfl,
          List.getLast?_eq_getElem?, List.getElem?_eq_getElem (by omega), pt,
          List.getD_eq_getElem points pOrigin (by omega)]
  have hfilter : (filterDensePoints d points).head? = points.head? ∧
      (filterDensePoints d points).getLast? = points.getLast? ∧
      (2 ≤ points.length → 2 ≤ (filterDensePoints d points).length) := by
    by_cases hf : points.length < 2
    · rw [filterDensePoints, if_pos hf]
      exact ⟨rfl, rfl, by omega⟩
    · obtain ⟨s, hform⟩ := filterDense_form d points hf
      have hne : points ≠ [] := by
        intro hnil
        rw [hnil] at hf
        exact hf (by simp)
      obtain ⟨z, hz⟩ : ∃ z, points.getLast? = some z := by
        cases hzc : points.getLast? with
        | none => exact absurd (List.getLast?_eq_none_iff.mp hzc) hne
        | some z => exact ⟨z, rfl⟩
      refine ⟨?_, ?_, ?_⟩
      · rw [hform]
        cases points with
        | nil => exact absurd rfl hne
        | cons a t => simp [pt]
      · rw [hform, hz]
        rw [show pt points 0 :: (s ++ [points.getLastD pOrigin])
            = (pt points 0 :: s) ++ [points.getLastD pOrigin] by simp]
        rw [List.getLast?_concat, List.getLastD_eq_getLast?, hz]
        rfl
      · intro _
        rw [hform]
        simp
  exact ⟨hsmooth.1, hsmooth.2.1, hfilter.1, hfilter.2.1,
    fun h2 => ⟨by rw [hsmooth.2.2]; exact h2, hfilter.2.2 h2⟩⟩

/-! ### Preview-ribbon degenerate tangent -/

theorem normalizeTangent_zero (g : ℚ → ℚ) : normalizeTangent g (0, 0) = (0, 0) := by
  rw [normalizeTangent]
  by_cases h : 0 < g ((0 : ℚ) * 0 + 0 * 0)
  · simp only [if_pos h]
    simp
  · simp only [if_neg h]

/-- Claim C9: in the preview ribbon builder, when the tangent estimated at
a point is the zero vector, the `length > 0` normalisation guard is false
(`sqrt 0 = 0`), so the division is skipped and the unnormalised tangent is
left in place; both emitted side vertices then coincide with the point
itself, independently of any behaviour of the square-root function, so no
NaN can reach the emitted vertex positions. -/
theorem c9_degenerate_tangent (sqrtFn : ℚ → ℚ) (halfWidth : ℚ) (points : List Point3)
    (i : ℕ) (hs : sqrtFn 0 = 0) (ht : tangentAt points i = (0, 0)) :
    normalizeTangent sqrtFn (tangentAt points i) = tangentAt points i ∧
    (∀ sqrtFn2 : ℚ → ℚ, ribbonPair sqrtFn2 halfWidth points i =
      [(pt points i).x, (pt points i).y, (pt points i).z,
       (pt points i).x, (pt points i).y, (pt points i).z]) := by
  constructor
  · rw [ht, normalizeTangent]
    have h0 : sqrtFn ((0 : ℚ) * 0 + 0 * 0) = 0 := by
      rw [show ((0 : ℚ) * 0 + 0 * 0) = 0 by ring, hs]
    simp only [h0]
    norm_num
  · intro g
    rw [ribbonPair, ht, normalizeTangent_zero g]
    norm_num

/-! ### Stroke creation and the debug-mode ReferenceError -/

/-- Claim C4: `createStroke` returns null exactly when the input has fewer
than 4 points.  With at least 4 points and `debugMode` off it returns a
completed stroke object carrying the input points, and an empty fit of an
individual chunk cannot abort it (the loop only skips that chunk's mesh);
but with `debugMode` on the code instead crashes — `addDebugPoints`
evaluates the unbound identifier `zIndex` — which contradicts the claim.
This theorem records the exact behaviour of the code. -/
theorem c4_createStroke_null_and_crash (points : List Point3) (w : ℚ)
    (camera : Option (ℚ × ℚ)) :
    (∀ dm : Bool, points.length < 4 → createStroke points w dm camera = .ok none) ∧
    (4 ≤ points.length →
      createStroke points w true camera = .error () ∧
      ∃ s : Stroke, createStroke points w false camera = .ok (some s) ∧
        s.points = points ∧ s.isComplete = true ∧ s.width = w) := by
  constructor
  · intro dm hlt
    rw [createStroke, if_pos hlt]
  · intro hge
    constructor
    · rw [createStroke, if_neg (by omega)]
      simp only [if_pos]
    · rw [createStroke, if_neg (by omega)]
      simp only [Bool.false_eq_true, if_neg]
      exact ⟨_, rfl, rfl, rfl, rfl⟩

/-! ### Witnesses for the hypothesis-bearing claim theorems -/

/-- Witness for C3 at the 20-point straight-line stroke of the spec. -/
theorem c3_chunk_windows_witness :
    4 ≤ ((List.range 20).map fun i => (⟨(i : ℚ), 0, 0⟩ : Point3)).length ∧
    ((List.range 20).map fun i => (⟨(i : ℚ), 0, 0⟩ : Point3)).length = 20 ∧
    (createChunks ((List.range 20).map fun i => (⟨(i : ℚ), 0, 0⟩ : Point3))).map
      (fun c => (c.startIndex, c.endIndex)) = [(0, 12), (9, 20)] :=
  ⟨by decide, by decide,
    (c3_chunk_windows ((List.range 20).map fun i => (⟨(i : ℚ), 0, 0⟩ : Point3))
      (by decide)).2.2.2.2 (by decide)⟩

/-- Witness for C8 on a concrete 2-point list. -/
theorem c8_filters_preserve_endpoints_witness :
    2 ≤ ([⟨0, 0, 0⟩, ⟨1, 0, 0⟩] : List Point3).length ∧
    (2 ≤ (smoothPoints true [⟨0, 0, 0⟩, ⟨1, 0, 0⟩]).length ∧
     2 ≤ (filterDensePoints minDistanceDefault [⟨0, 0, 0⟩, ⟨1, 0, 0⟩]).length) :=
  ⟨by decide,
    (c8_filters_preserve_endpoints true minDistanceDefault
      [⟨0, 0, 0⟩, ⟨1, 0, 0⟩]).2.2.2.2 (by decide)⟩

/-- Witness for C9 at a 3-point polyline whose middle point has a
zero-length tangent estimate (its neighbours coincide). -/
theorem c9_degenerate_tangent_witness :
    ((fun _ : ℚ => (0 : ℚ)) 0 = 0) ∧
    tangentAt [⟨0, 0, 0⟩, ⟨1, 1, 0⟩, ⟨0, 0, 0⟩] 1 = (0, 0) ∧
    (normalizeTangent (fun _ : ℚ => (0 : ℚ))
        (tangentAt [⟨0, 0, 0⟩, ⟨1, 1, 0⟩, ⟨0, 0, 0⟩] 1)
      = tangentAt [⟨0, 0, 0⟩, ⟨1, 1, 0⟩, ⟨0, 0, 0⟩] 1 ∧
     (∀ sqrtFn2 : ℚ → ℚ, ribbonPair sqrtFn2 (1 / 100)
        [⟨0, 0, 0⟩, ⟨1, 1, 0⟩, ⟨0, 0, 0⟩] 1 =
       [(pt [⟨0, 0, 0⟩, ⟨1, 1, 0⟩, ⟨0, 0, 0⟩] 1).x,
        (pt [⟨0, 0, 0⟩, ⟨1, 1, 0⟩, ⟨0, 0, 0⟩] 1).y,
        (pt [⟨0, 0, 0⟩, ⟨1, 1, 0⟩, ⟨0, 0, 0⟩] 1).z,
        (pt [⟨0, 0, 0⟩, ⟨1, 1, 0⟩, ⟨0, 0, 0⟩] 1).x,
        (pt [⟨0, 0, 0⟩, ⟨1, 1, 0⟩, ⟨0, 0, 0⟩] 1).y,
        (pt [⟨0, 0, 0⟩, ⟨1, 1, 0⟩, ⟨0, 0, 0⟩] 1).z])) :=
  ⟨rfl, by norm_num [tangentAt, pt],
    c9_degenerate_tangent (fun _ : ℚ => (0 : ℚ)) (1 / 100)
      [⟨0, 0, 0⟩, ⟨1, 1, 0⟩, ⟨0, 0, 0⟩] 1 rfl (by norm_num [tangentAt, pt])⟩

/-- Witness for C4 at a concrete 4-point stroke. -/
theorem c4_createStroke_witness :
    4 ≤ ([⟨0, 0, 0⟩, ⟨1, 0, 0⟩, ⟨2, 1, 0⟩, ⟨3, 1, 0⟩] : List Point3).length ∧
    (createStroke [⟨0, 0, 0⟩, ⟨1, 0, 0⟩, ⟨2, 1, 0⟩, ⟨3, 1, 0⟩] (1 / 100) true none
        = .error () ∧
     ∃ s : Stroke, createStroke [⟨0, 0, 0⟩, ⟨1, 0, 0⟩, ⟨2, 1, 0⟩, ⟨3, 1, 0⟩]
        (1 / 100) false none = .ok (some s) ∧
       s.points = [⟨0, 0, 0⟩, ⟨1, 0, 0⟩, ⟨2, 1, 0⟩, ⟨3, 1, 0⟩] ∧
       s.isComplete = true ∧ s.width = 1 / 100) :=
  ⟨by decide,
    (c4_createStroke_null_and_crash [⟨0, 0, 0⟩, ⟨1, 0, 0⟩, ⟨2, 1, 0⟩, ⟨3, 1, 0⟩]
      (1 / 100) none).2 (by decide)⟩

/-! ### Gaussian elimination: basic facts -/

theorem rowSwap_self (M : Mat) (a : ℕ) : rowSwap M a a = M := by
  funext r c
  rw [rowSwap]
  by_cases h : r = a
  · rw [if_pos h, h]
  · rw [if_neg h, if_neg h]

theorem foldl_pivot_mem (L : Mat) (i : ℕ) :
    ∀ (l : List ℕ) (a : ℕ),
      l.foldl (fun maxRow k => if |L maxRow i| < |L k i| then k else maxRow) a = a ∨
      l.foldl (fun maxRow k => if |L maxRow i| < |L k i| then k else maxRow) a ∈ l := by
  intro l
  induction l with
  | nil => exact fun a => Or.inl rfl
  | cons k t ih =>
    intro a
    rw [List.foldl_cons]
    rcases ih (if |L a i| < |L k i| then k else a) with h | h
    · rw [h]
      by_cases hc : |L a i| < |L k i|
      · rw [if_pos hc]
        exact Or.inr (by simp)
      · rw [if_neg hc]
        exact Or.inl rfl
    · exact Or.inr (List.mem_cons_of_mem k h)

theorem foldl_pivot_stay (L : Mat) (i : ℕ) :
    ∀ (l : List ℕ), (∀ k ∈ l, ¬ |L i i| < |L k i|) →
      l.foldl (fun maxRow k => if |L maxRow i| < |L k i| then k else maxRow) i = i := by
  intro l
  induction l with
  | nil => exact fun _ => rfl
  | cons k t ih =>
    intro h
    rw [List.foldl_cons, if_neg (h k (by simp))]
    exact ih fun x hx => h x (by simp [hx])

theorem pivotRow_range (L : Mat) (i m : ℕ) :
    pivotRow L i m = i ∨ (i + 1 ≤ pivotRow L i m ∧ pivotRow L i m < m) := by
  rw [pivotRow]
  rcases foldl_pivot_mem L i (List.range' (i + 1) (m - (i + 1))) i with h | h
  · exact Or.inl h
  · right
    rw [List.mem_range'_1] at h
    omega

/-! ### Gaussian elimination: the product invariant -/

theorem ProdInv_init (m : ℕ) (A : Mat) : ProdInv m A ⟨A, idMat⟩ := by
  intro r hr c _
  unfold multiply idMat
  simp only
  rw [Finset.sum_eq_single r]
  · rw [if_pos rfl, one_mul]
  · intro b _ hb
    rw [if_neg (by omega), zero_mul]
  · intro hr2
    exact absurd (Finset.mem_range.mpr hr) hr2

theorem ProdInv_swap (m : ℕ) (A : Mat) (st : GE) (a b : ℕ)
    (ha : a < m) (hb : b < m) (h : ProdInv m A st) :
    ProdInv m A ⟨rowSwap st.L a b, rowSwap st.R a b⟩ := by
  intro r hr c hc
  simp only [rowSwap, multiply]
  by_cases h1 : r = a
  · rw [if_pos h1, if_pos h1]
    exact h b hb c hc
  · rw [if_neg h1, if_neg h1]
    by_cases h2 : r = b
    · rw [if_pos h2, if_pos h2]
      exact h a ha c hc
    · rw [if_neg h2, if_neg h2]
      exact h r hr c hc

theorem ProdInv_elimRow (m : ℕ) (A : Mat) (st : GE) (i k : ℕ)
    (hi : i < m) (hk : k < m) (hzero : ∀ c, c < i → st.L i c = 0)
    (h : ProdInv m A st) : ProdInv m A (elimRow st i k) := by
  intro r hr c hc
  simp only [elimRow, multiply]
  by_cases h1 : r = k
  · subst h1
    simp only [eq_self_iff_true, true_and, if_true]
    have hsum : ∑ x ∈ Finset.range m,
        (st.R r x - st.L r i / st.L i i * st.R i x) * A x c
        = (∑ x ∈ Finset.range m, st.R r x * A x c)
          - st.L r i / st.L i i * ∑ x ∈ Finset.range m, st.R i x * A x c := by
      rw [Finset.mul_sum, ← Finset.sum_sub_distrib]
      refine Finset.sum_congr rfl fun x _ => by ring
    rw [hsum]
    have hr2 := h r hr c hc
    have hi2 := h i hi c hc
    rw [multiply] at hr2 hi2
    rw [hr2, hi2]
    by_cases h2 : i ≤ c
    · rw [if_pos h2]
    · rw [if_neg h2]
      rw [hzero c (by omega)]
      ring
  · simp only [h1, false_and, if_false]
    exact h r hr c hc

theorem ProdInv_backElimRow (m : ℕ) (A : Mat) (st : GE) (i k : ℕ)
    (hi : i < m) (hk : k < m) (h : ProdInv m A st) :
    ProdInv m A (backElimRow st i k) := by
  intro r hr c hc
  simp only [backElimRow, multiply]
  by_cases h1 : r = k
  · subst h1
    simp only [eq_self_iff_true, if_true]
    have hsum : ∑ x ∈ Finset.range m, (st.R r x - st.L r i * st.R i x) * A x c
        = (∑ x ∈ Finset.range m, st.R r x * A x c)
          - st.L r i * ∑ x ∈ Finset.range m, st.R i x * A x c := by
      rw [Finset.mul_sum, ← Finset.sum_sub_distrib]
      refine Finset.sum_congr rfl fun x _ => by ring
    rw [hsum]
    have hr2 := h r hr c hc
    have hi2 := h i hi c hc
    rw [multiply] at hr2 hi2
    rw [hr2, hi2]
  · simp only [h1, if_false]
    exact h r hr c hc

theorem ProdInv_normRow (m : ℕ) (A : Mat) (st : GE) (i : ℕ)
    (hi : i < m) (h : ProdInv m A st) : ProdInv m A (normRow st i) := by
  intro r hr c hc
  simp only [normRow, multiply]
  by_cases h1 : r = i
  · subst h1
    simp only [eq_self_iff_true, if_true]
    have hsum : ∑ x ∈ Finset.range m, st.R r x / st.L r r * A x c
        = (∑ x ∈ Finset.range m, st.R r x * A x c) / st.L r r := by
      rw [Finset.sum_div]
      refine Finset.sum_congr rfl fun x _ => by ring
    rw [hsum]
    have hr2 := h r hr c hc
    rw [multiply] at hr2
    rw [hr2]
  · simp only [h1, if_false]
    exact h r hr c hc

/-! ### Forward elimination preserves the invariant -/

theorem elimFold_spec (m : ℕ) (A : Mat) (i : ℕ) (hi : i < m) :
    ∀ (l : List ℕ) (st : GE), (∀ k ∈ l, i < k ∧ k < m) → l.Nodup →
      ProdInv m A st → LowerZero m i st → st.L i i ≠ 0 →
      ProdInv m A (l.foldl (fun s k => elimRow s i k) st) ∧
      LowerZero m i (l.foldl (fun s k => elimRow s i k) st) ∧
      (∀ r, r ∉ l → ∀ c, (l.foldl (fun s k => elimRow s i k) st).L r c = st.L r c) ∧
      (∀ k ∈ l, (l.foldl (fun s k => elimRow s i k) st).L k i = 0) := by
  intro l
  induction l with
  | nil =>
    intro st _ _ hprod hlz _
    exact ⟨hprod, hlz, fun _ _ _ => rfl, fun k hk => absurd hk (List.not_mem_nil k)⟩
  | cons k t ih =>
    intro st hmem hnd hprod hlz hnz
    obtain ⟨hik, hkm⟩ := hmem k (by simp)
    have hkt : k ∉ t := (List.nodup_cons.mp hnd).1
    rw [List.foldl_cons]
    have hzrowi : ∀ c, c < i → st.L i c = 0 := fun c hc => hlz i hi c hc hc
    have hprod1 := ProdInv_elimRow m A st i k hi hkm hzrowi hprod
    have hL1 : ∀ r c, ¬ (r = k ∧ i ≤ c) → (elimRow st i k).L r c = st.L r c := by
      intro r c hrc
      simp only [elimRow, if_neg hrc]
    have hlz1 : LowerZero m i (elimRow st i k) := by
      intro r hr c hc hcr
      rw [hL1 r c (by omega)]
      exact hlz r hr c hc hcr
    have hrowi1 : ∀ c, (elimRow st i k).L i c = st.L i c := by
      intro c
      refine hL1 i c ?_
      intro hrc
      omega
    have hki1 : (elimRow st i k).L k i = 0 := by
      simp only [elimRow, eq_self_iff_true, true_and, if_pos (le_refl i)]
      rw [div_mul_cancel₀ _ hnz, sub_self]
    have hnz1 : (elimRow st i k).L i i ≠ 0 := by
      rw [hrowi1 i]
      exact hnz
    obtain ⟨g1, g2, g3, g4⟩ := ih (elimRow st i k)
      (fun x hx => hmem x (by simp [hx])) (List.nodup_cons.mp hnd).2 hprod1 hlz1 hnz1
    refine ⟨g1, g2, ?_, ?_⟩
    · intro r hr c
      rw [g3 r (fun hmem2 => hr (by simp [hmem2]))]
      exact hL1 r c (by
        intro hrc
        exact hr (by simp [hrc.1]))
    · intro x hx
      rcases List.mem_cons.mp hx with hx1 | hx1

      · subst hx1
        rw [g3 x hkt]
        exact hki1
      · exact g4 x hx1

theorem forwardStep_inv (m : ℕ) (A : Mat) (i : ℕ) (st st1 : GE) (hi : i < m)
    (hinv : FwdInv m A i st) (hstep : forwardStep m st i = some st1) :
    FwdInv m A (i + 1) st1 := by
  obtain ⟨hprod, hlz, hpiv⟩ := hinv
  have hpb : i ≤ pivotRow st.L i m ∧ pivotRow st.L i m < m := by
    rcases pivotRow_range st.L i m with h | h
    · omega
    · omega
  rw [forwardStep] at hstep
  set p := pivotRow st.L i m with hp
  set st2 : GE := ⟨rowSwap st.L i p, rowSwap st.R i p⟩ with hst2
  by_cases hguard : |st2.L i i| < eps
  · rw [if_pos hguard] at hstep
    exact absurd hstep (by simp)
  · rw [if_neg hguard] at hstep
    have hfold : (List.range' (i + 1) (m - (i + 1))).foldl
        (fun s k => elimRow s i k) st2 = st1 := by
      injection hstep
    have hprod2 : ProdInv m A st2 := ProdInv_swap m A st i p hi hpb.2 hprod
    have hlz2 : LowerZero m i st2 := by
      intro r hr c hc hcr
      simp only [hst2, rowSwap]
      by_cases h1 : r = i
      · rw [if_pos h1]
        exact hlz p hpb.2 c hc (by omega)
      · rw [if_neg h1]
        by_cases h2 : r = p
        · rw [if_pos h2]
          exact hlz i hi c hc (by omega)
        · rw [if_neg h2]
          exact hlz r hr c hc hcr
    have hpiv2 : PivotsNZ i st2 := by
      intro r hr
      have h1 : ¬ r = i := by omega
      have h2 : ¬ r = p := by omega
      simp only [hst2, rowSwap, if_neg h1, if_neg h2]
      exact hpiv r hr
    have hnz2 : st2.L i i ≠ 0 := by
      intro hz
      rw [hz] at hguard
      exact hguard (by rw [abs_zero, eps]; norm_num)
    have hmem : ∀ k ∈ List.range' (i + 1) (m - (i + 1)), i < k ∧ k < m := by
      intro k hk
      rw [List.mem_range'_1] at hk
      omega
    obtain ⟨g1, g2, g3, g4⟩ := elimFold_spec m A i hi
      (List.range' (i + 1) (m - (i + 1))) st2 hmem (List.nodup_range' _ _) hprod2 hlz2 hnz2
    rw [hfold] at g1 g2 g3 g4
    refine ⟨g1, ?_, ?_⟩
    · intro r hr c hc hcr
      rcases Nat.lt_or_ge c i with hci | hci
      · exact g2 r hr c hci hcr
      · have hci2 : c = i := by omega
        subst hci2
        refine g4 r ?_
        rw [List.mem_range'_1]
        omega
    · intro r hr
      have hnotin : r ∉ List.range' (i + 1) (m - (i + 1)) := by
        rw [List.mem_range'_1]
        omega
      rw [g3 r hnotin]
      rcases Nat.lt_or_ge r i with hri | hri
      · exact hpiv2 r hri
      · have hri2 : r = i := by omega
        subst hri2
        exact hnz2

theorem forwardAux_inv (m : ℕ) (A : Mat) :
    ∀ (cnt i : ℕ) (st st1 : GE), i + cnt = m → FwdInv m A i st →
      forwardAux m st (List.range' i cnt) = some st1 → FwdInv m A m st1 := by
  intro cnt
  induction cnt with
  | zero =>
    intro i st st1 hi hinv h
    have h2 : st = st1 := by
      simpa [forwardAux] using h
    have h3 : i = m := by omega
    subst h2
    subst h3
    exact hinv
  | succ c ih =>
    intro i st st1 hi hinv h
    rw [show List.range' i (c + 1) = i :: List.range' (i + 1) c from rfl] at h
    rw [forwardAux] at h
    cases hfs : forwardStep m st i with
    | none =>
      rw [hfs] at h
      exact absurd h (by simp)
    | some st2 =>
      rw [hfs] at h
      simp only [Option.some_bind] at h
      exact ih (i + 1) st2 st1 (by omega)
        (forwardStep_inv m A i st st2 (by omega) hinv hfs) h

/-! ### Back substitution yields the identity on the left half -/

theorem backFold_spec (m : ℕ) (A : Mat) (i : ℕ) (hi : i < m) :
    ∀ (l : List ℕ) (st : GE), (∀ k ∈ l, k < i) → l.Nodup →
      (∀ c, c < m → st.L i c = if c = i then 1 else 0) →
      ProdInv m A st →
      ProdInv m A (l.foldl (fun s k => backElimRow s i k) st) ∧
      (∀ r, r ∉ l → ∀ c, (l.foldl (fun s k => backElimRow s i k) st).L r c = st.L r c) ∧
      (∀ k ∈ l, ∀ c, c < m →
        (l.foldl (fun s k => backElimRow s i k) st).L k c
          = if c = i then 0 else st.L k c) := by
  intro l
  induction l with
  | nil =>
    intro st _ _ _ hprod
    exact ⟨hprod, fun _ _ _ => rfl, fun k hk => absurd hk (List.not_mem_nil k)⟩
  | cons k t ih =>
    intro st hmem hnd hrow hprod
    have hki : k < i := hmem k (by simp)
    have hkt : k ∉ t := (List.nodup_cons.mp hnd).1
    rw [List.foldl_cons]
    have hL1 : ∀ r c, r ≠ k → (backElimRow st i k).L r c = st.L r c := by
      intro r c hr
      simp only [backElimRow, if_neg hr]
    have hrowk : ∀ c, c < m → (backElimRow st i k).L k c
        = if c = i then 0 else st.L k c := by
      intro c hc
      simp only [backElimRow, eq_self_iff_true, if_true]
      by_cases hci : c = i
      · rw [if_pos hci, hci, hrow i hi, if_pos rfl, mul_one, sub_self]
      · rw [if_neg hci, hrow c hc, if_neg hci, mul_zero, sub_zero]
    have hrow1 : ∀ c, c < m → (backElimRow st i k).L i c = if c = i then 1 else 0 := by
      intro c hc
      rw [hL1 i c (by omega)]
      exact hrow c hc
    have hprod1 := ProdInv_backElimRow m A st i k hi (by omega) hprod
    obtain ⟨g1, g2, g3⟩ := ih (backElimRow st i k)
      (fun x hx => hmem x (by simp [hx])) (List.nodup_cons.mp hnd).2 hrow1 hprod1
    refine ⟨g1, ?_, ?_⟩
    · intro r hr c
      rw [g2 r (fun hmem2 => hr (by simp [hmem2]))]
      exact hL1 r c (fun hrk => hr (by simp [hrk]))
    · intro x hx c hc
      rcases List.mem_cons.mp hx with hx1 | hx1
      · subst hx1
        rw [g2 x hkt]
        exact hrowk c hc
      · rw [g3 x hx1 c hc]
        by_cases hci : c = i
        · rw [if_pos hci, if_pos hci]
        · rw [if_neg hci, if_neg hci]
          exact hL1 x c (fun hxk => hkt (hxk ▸ hx1))

theorem backStep_inv (m : ℕ) (A : Mat) (j : ℕ) (st : GE) (hj : j < m)
    (hinv : BackInv m A (j + 1) st) : BackInv m A j (backStep st j) := by
  obtain ⟨hprod, hid, hupper, hpiv⟩ := hinv
  have hrowj := hupper j hj (by omega)
  have hpj : st.L j j ≠ 0 := hpiv j (by omega)
  have hrow2 : ∀ c, c < m → (normRow st j).L j c = if c = j then 1 else 0 := by
    intro c hc
    simp only [normRow, eq_self_iff_true, if_true]
    by_cases hcj : c = j
    · rw [if_pos hcj, hcj, div_self hpj]
    · rw [if_neg hcj]
      rcases Nat.lt_or_ge c j with hlt | hge
      · rw [hrowj.1 c hlt, zero_div]
      · rw [hrowj.2 c hc (by omega), zero_div]
  have hL2 : ∀ r c, r ≠ j → (normRow st j).L r c = st.L r c := by
    intro r c hr
    simp only [normRow, if_neg hr]
  have hprod2 := ProdInv_normRow m A st j hj hprod
  obtain ⟨g1, g2, g3⟩ := backFold_spec m A j hj (List.range j) (normRow st j)
    (fun k hk => List.mem_range.mp hk) (List.nodup_range j) hrow2 hprod2
  rw [backStep]
  refine ⟨g1, ?_, ?_, ?_⟩
  · intro r hr hjr c hc
    by_cases hrj : r = j
    · subst hrj
      rw [g2 r (by simp), hrow2 c hc]
      by_cases hrc : r = c
      · rw [if_pos hrc, if_pos hrc.symm]
      · rw [if_neg hrc, if_neg (fun hcr => hrc hcr.symm)]
    · have hrin : r ∉ List.range j := by
        rw [List.mem_range]
        omega
      rw [g2 r hrin, hL2 r c hrj]
      exact hid r hr (by omega) c hc
  · intro r hr hrj
    have hrin : r ∈ List.range j := List.mem_range.mpr hrj
    constructor
    · intro c hcr
      rw [g3 r hrin c (by omega), if_neg (by omega), hL2 r c (by omega)]
      exact (hupper r hr (by omega)).1 c hcr
    · intro c hc hjc
      rw [g3 r hrin c hc]
      by_cases hcj : c = j
      · rw [if_pos hcj]
      · rw [if_neg hcj, hL2 r c (by omega)]
        exact (hupper r hr (by omega)).2 c hc (by omega)
  · intro r hrj
    have hrin : r ∈ List.range j := List.mem_range.mpr hrj
    rw [g3 r hrin r (by omega), if_neg (by omega), hL2 r r (by omega)]
    exact hpiv r (by omega)

theorem backAux_inv (m : ℕ) (A : Mat) :
    ∀ (j : ℕ) (st : GE), j ≤ m → BackInv m A j st →
      BackInv m A 0 (backAux st (List.range j).reverse) := by
  intro j
  induction j with
  | zero =>
    intro st _ hinv
    exact hinv
  | succ c ih =>
    intro st hj hinv
    rw [List.range_succ, List.reverse_append]
    rw [show ([c] : List ℕ).reverse ++ (List.range c).reverse
        = c :: (List.range c).reverse by simp]
    rw [backAux]
    exact ih (backStep st c) (by omega) (backStep_inv m A c st (by omega) hinv)

/-- After a successful `Matrix.inverse`, the extracted right half is a left
inverse of `A` on the `m × m` window. -/
theorem inverse_left (m : ℕ) (A Ainv : Mat) (h : inverse m A = some Ainv) :
    ∀ r, r < m → ∀ c, c < m → multiply m Ainv A r c = idMat r c := by
  rw [inverse] at h
  cases hf : forward m ⟨A, idMat⟩ with
  | none =>
    rw [hf] at h
    exact absurd h (by simp)
  | some st =>
    rw [hf, Option.map_some'] at h
    have hA : Ainv = (back m st).R := (Option.some.injEq _ _ ▸ h).symm
    have hfwd : FwdInv m A m st := by
      refine forwardAux_inv m A m 0 ⟨A, idMat⟩ st (by omega) ?_ ?_
      · exact ⟨ProdInv_init m A, fun r _ c hc _ => absurd hc (by omega),
          fun r hr => absurd hr (by omega)⟩
      · rw [← List.range_eq_range']
        exact hf
    obtain ⟨hprod, hlz, hpiv⟩ := hfwd
    have hback : BackInv m A 0 (back m st) := by
      rw [back]
      refine backAux_inv m A m st (le_refl m) ?_
      refine ⟨hprod, ?_, ?_, hpiv⟩
      · intro r hr hmr
        omega
      · intro r hr _
        exact ⟨fun c hcr => hlz r hr c (by omega) hcr, fun c hc hmc => by omega⟩
    intro r hr c hc
    rw [hA]
    rw [hback.1 r hr c hc]
    rw [hback.2.1 r hr (by omega) c hc]
    rw [idMat]

/-- A left inverse of a square matrix over ℚ is also a right inverse
(via Mathlib's `Matrix.mul_eq_one_comm` on the `Fin m` window). -/
theorem inverse_right (m : ℕ) (A Ainv : Mat) (h : inverse m A = some Ainv) :
    ∀ r, r < m → ∀ c, c < m → multiply m A Ainv r c = idMat r c := by
  have hL := inverse_left m A Ainv h
  have hGF : (Matrix.of fun i j : Fin m => Ainv i.val j.val) *
      (Matrix.of fun i j : Fin m => A i.val j.val) = 1 := by
    ext i j
    rw [Matrix.mul_apply]
    simp only [Matrix.of_apply]
    rw [Fin.sum_univ_eq_sum_range (fun k => Ainv i.val k * A k j.val) m]
    have h2 := hL i.val i.isLt j.val j.isLt
    rw [multiply] at h2
    rw [h2, Matrix.one_apply, idMat]
    by_cases hij : i = j
    · rw [if_pos hij, if_pos (by rw [hij])]
    · rw [if_neg hij, if_neg (fun hh => hij (Fin.ext hh))]
  have hFG := Matrix.mul_eq_one_comm.mp hGF
  intro r hr c hc
  have h3 : ((Matrix.of fun i j : Fin m => A i.val j.val) *
      (Matrix.of fun i j : Fin m => Ainv i.val j.val)) ⟨r, hr⟩ ⟨c, hc⟩
      = (1 : Matrix (Fin m) (Fin m) ℚ) ⟨r, hr⟩ ⟨c, hc⟩ := by
    rw [hFG]
  rw [Matrix.mul_apply] at h3
  simp only [Matrix.of_apply] at h3
  rw [Fin.sum_univ_eq_sum_range (fun k => A r k * Ainv k c) m] at h3
  rw [Matrix.one_apply] at h3
  rw [multiply, idMat]
  rw [h3]
  by_cases hrc : r = c
  · rw [if_pos hrc, if_pos (by exact Fin.ext hrc)]
  · rw [if_neg hrc, if_neg (fun hh => hrc (congrArg Fin.val hh))]

theorem multiply_assoc (m : ℕ) (f g h : Mat) (r c : ℕ) :
    multiply m f (multiply m g h) r c = multiply m (multiply m f g) h r c := by
  unfold multiply
  simp only [Finset.mul_sum, Finset.sum_mul]
  rw [Finset.sum_comm]
  refine Finset.sum_congr rfl fun l _ => Finset.sum_congr rfl fun k _ => by ring

/-- `B = C⁻¹ · S` solves the linear system: `C · B = S` on the rows of the
window, for every column. -/
theorem solve_relation (m : ℕ) (A Ainv S : Mat) (h : inverse m A = some Ainv)
    (r : ℕ) (hr : r < m) (c : ℕ) :
    multiply m A (multiply m Ainv S) r c = S r c := by
  rw [multiply_assoc]
  rw [show multiply m (multiply m A Ainv) S r c
      = ∑ k ∈ Finset.range m, multiply m A Ainv r k * S k c from rfl]
  rw [Finset.sum_congr rfl fun k hk => by
    rw [inverse_right m A Ainv h r hr k (Finset.mem_range.mp hk)]]
  rw [show ∑ k ∈ Finset.range m, idMat r k * S k c
      = ∑ k ∈ Finset.range m, (if r = k then 1 else 0) * S k c from rfl]
  rw [Finset.sum_eq_single r]
  · rw [if_pos rfl, one_mul]
  · intro b _ hb
    rw [if_neg (by omega), zero_mul]
  · intro hr2
    exact absurd (Finset.mem_range.mpr hr) hr2

/-! ### The filled matrix C is the constant tridiagonal matrix -/

theorem fillCStep_ne (m : ℕ) (M : Mat) (i j : ℕ) (h : i ≠ j) : fillCStep m M i j = M := by
  rw [fillCStep, if_neg h]

theorem foldl_fillC_skip (m i : ℕ) :
    ∀ (l : List ℕ) (M : Mat), (∀ j ∈ l, j ≠ i) →
      l.foldl (fun M2 j => fillCStep m M2 i j) M = M := by
  intro l
  induction l with
  | nil => exact fun M _ => rfl
  | cons j t ih =>
    intro M h
    rw [List.foldl_cons, fillCStep_ne m M i j (fun hij => h j (by simp) hij.symm)]
    exact ih M fun x hx => h x (by simp [hx])

theorem inner_loop_collapse (m i : ℕ) (hi : i < m) (M : Mat) :
    (List.range m).foldl (fun M2 j => fillCStep m M2 i j) M = fillCStep m M i i := by
  have hdecomp : List.range m = List.range' 0 i ++ (i :: List.range' (i + 1) (m - (i + 1))) := by
    rw [List.range_eq_range']
    rw [show (i : ℕ) :: List.range' (i + 1) (m - (i + 1)) = List.range' i (m - i) by
      rw [show m - i = (m - (i + 1)) + 1 by omega]
      rfl]
    have h3 := List.range'_append 0 i (m - i) 1
    rw [show (0 + 1 * i) = i by omega] at h3
    rw [show (m - i) + i = m by omega] at h3
    exact h3.symm
  rw [hdecomp, List.foldl_append]
  rw [foldl_fillC_skip m i (List.range' 0 i) M
    (fun j hj => by rw [List.mem_range'_1] at hj; omega)]
  rw [List.foldl_cons]
  exact foldl_fillC_skip m i _ _ fun j hj => by rw [List.mem_range'_1] at hj; omega

theorem buildC_partial (m : ℕ) :
    ∀ t, t ≤ m → ∀ r c,
      ((List.range t).foldl
        (fun M i => (List.range m).foldl (fun M2 j => fillCStep m M2 i j) M) zeroMat) r c
      = if r = c ∧ r < t then 4
        else if r = c + 1 ∧ c < t ∧ c + 1 < m then 1
        else if c = r + 1 ∧ r < t ∧ r + 1 < m then 1
        else 0 := by
  intro t
  induction t with
  | zero =>
    intro _ r c
    rw [List.range_zero, List.foldl_nil]
    rw [if_neg (by omega), if_neg (by omega), if_neg (by omega)]
    rfl
  | succ t ih =>
    intro ht r c
    rw [List.range_succ, List.foldl_append, List.foldl_cons, List.foldl_nil]
    rw [inner_loop_collapse m t (by omega)]
    rw [fillCStep, if_pos rfl]
    by_cases h1 : t + 1 < m
    · rw [if_pos h1]
      simp only [setEntry]
      rw [ih (by omega) r c]
      split_ifs <;> first | rfl | omega
    · rw [if_neg h1]
      simp only [setEntry]
      rw [ih (by omega) r c]
      split_ifs <;> first | rfl | omega

theorem buildC_eq_triC (m : ℕ) : ∀ r c, buildC m r c = triC m r c := by
  intro r c
  rw [buildC, buildC_partial m m (le_refl m) r c, triC]
  split_ifs <;> first | rfl | omega

/-! ### Row structure of the tridiagonal matrix -/

theorem triC_term (m r k : ℕ) (hr : r < m) (hk : k < m) (f : ℕ → ℚ) :
    triC m r k * f k = (if k = r then 4 * f r else 0)
      + (if 1 ≤ r ∧ k = r - 1 then f (r - 1) else 0)
      + (if r + 1 < m ∧ k = r + 1 then f (r + 1) else 0) := by
  rw [triC, if_pos ⟨hr, hk⟩]
  by_cases h1 : r = k
  · subst h1
    rw [if_pos (rfl : r = r), if_pos (rfl : r = r),
      if_neg (show ¬ (1 ≤ r ∧ r = r - 1) by omega),
      if_neg (show ¬ (r + 1 < m ∧ r = r + 1) by omega)]
    ring
  · rw [if_neg h1, if_neg (show ¬ (k = r) from fun hh => h1 hh.symm)]
    by_cases h2 : r = k + 1 ∨ k = r + 1
    · rw [if_pos h2]
      rcases h2 with h2 | h2
      · rw [if_pos (show 1 ≤ r ∧ k = r - 1 by omega),
          if_neg (show ¬ (r + 1 < m ∧ k = r + 1) by omega)]
        rw [show k = r - 1 by omega]
        ring
      · rw [if_neg (show ¬ (1 ≤ r ∧ k = r - 1) by omega),
          if_pos (show r + 1 < m ∧ k = r + 1 from ⟨by omega, h2⟩), h2]
        ring
    · rw [if_neg h2, if_neg (show ¬ (1 ≤ r ∧ k = r - 1) by omega),
        if_neg (show ¬ (r + 1 < m ∧ k = r + 1) by omega)]
      ring

theorem triC_row_mul (m : ℕ) (f : ℕ → ℚ) (r : ℕ) (hr : r < m) :
    ∑ k ∈ Finset.range m, triC m r k * f k =
      (if 1 ≤ r then f (r - 1) else 0) + 4 * f r +
      (if r + 1 < m then f (r + 1) else 0) := by
  rw [Finset.sum_congr rfl fun k hk => triC_term m r k hr (Finset.mem_range.mp hk) f]
  rw [Finset.sum_add_distrib, Finset.sum_add_distrib]
  rw [Finset.sum_ite_eq' (Finset.range m) r (fun _ => 4 * f r),
    if_pos (Finset.mem_range.mpr hr)]
  by_cases h1 : 1 ≤ r
  · simp only [h1, true_and, if_true]
    rw [Finset.sum_ite_eq' (Finset.range m) (r - 1) (fun _ => f (r - 1)),
      if_pos (Finset.mem_range.mpr (by omega))]
    by_cases h2 : r + 1 < m
    · simp only [h2, true_and, if_true]
      rw [Finset.sum_ite_eq' (Finset.range m) (r + 1) (fun _ => f (r + 1)),
        if_pos (Finset.mem_range.mpr (by omega))]
      ring
    · simp only [h2, false_and, if_false]
      rw [Finset.sum_const_zero]
      ring
  · simp only [h1, false_and, if_false]
    rw [Finset.sum_const_zero]
    by_cases h2 : r + 1 < m
    · simp only [h2, true_and, if_true]
      rw [Finset.sum_ite_eq' (Finset.range m) (r + 1) (fun _ => f (r + 1)),
        if_pos (Finset.mem_range.mpr (by omega))]
      ring
    · simp only [h2, false_and, if_false]
      rw [Finset.sum_const_zero]
      ring

/-! ### Forward elimination on the tridiagonal matrix never hits the
singular branch -/

theorem pivotSeq_bounds : ∀ k, 7 / 2 ≤ pivotSeq k ∧ pivotSeq k ≤ 4 := by
  intro k
  induction k with
  | zero =>
    rw [pivotSeq]
    norm_num
  | succ k ih =>
    rw [pivotSeq]
    have hpos : (0 : ℚ) < pivotSeq k := lt_of_lt_of_le (by norm_num) ih.1
    constructor
    · have hinv : 1 / pivotSeq k ≤ 1 / (7 / 2) := by
        exact one_div_le_one_div_of_le (by norm_num) ih.1
      have h2 : (1 : ℚ) / (7 / 2) = 2 / 7 := by norm_num
      rw [h2] at hinv
      linarith
    · have hinv : 0 < 1 / pivotSeq k := by positivity
      linarith

theorem pivotSeq_pos (k : ℕ) : 0 < pivotSeq k :=
  lt_of_lt_of_le (by norm_num) (pivotSeq_bounds k).1

theorem elimRow_zero_factor (st : GE) (i k : ℕ) (h : st.L k i = 0) :
    elimRow st i k = st := by
  have hL : (elimRow st i k).L = st.L := by
    funext r c
    simp only [elimRow, h, zero_div]
    by_cases hrc : r = k ∧ i ≤ c
    · rw [if_pos hrc]
      ring
    · rw [if_neg hrc]
  have hR : (elimRow st i k).R = st.R := by
    funext r c
    simp only [elimRow, h, zero_div]
    by_cases hrc : r = k
    · rw [if_pos hrc]
      ring
    · rw [if_neg hrc]
  cases st
  simp only at hL hR
  rw [elimRow] at hL hR ⊢
  simp only at hL hR ⊢
  rw [hL, hR]

theorem elimFold_zero (i : ℕ) :
    ∀ (l : List ℕ) (st : GE), (∀ k ∈ l, st.L k i = 0) →
      l.foldl (fun s k => elimRow s i k) st = st := by
  intro l
  induction l with
  | nil => exact fun st _ => rfl
  | cons k t ih =>
    intro st h
    rw [List.foldl_cons, elimRow_zero_factor st i k (h k (by simp))]
    exact ih st fun x hx => h x (by simp [hx])

theorem forwardStep_triC (m i : ℕ) (st : GE) (hi : i < m) (h2m : 2 ≤ m)
    (hinv : TriInv m i st) :
    ∃ st1, forwardStep m st i = some st1 ∧ (i + 1 < m → TriInv m (i + 1) st1) := by
  obtain ⟨hrow, hrest⟩ := hinv
  have hLii : st.L i i = pivotSeq i := by
    rw [hrow i hi, if_pos rfl]
  have hLki : ∀ k, i + 1 ≤ k → k < m → st.L k i = if k = i + 1 then 1 else 0 := by
    intro k hk1 hk2
    rw [hrest k hk2 (by omega) i hi, triC, if_pos ⟨hk2, hi⟩, if_neg (by omega)]
    by_cases hki1 : k = i + 1
    · rw [if_pos (Or.inl hki1), if_pos hki1]
    · rw [if_neg (by omega), if_neg hki1]
  have hpivot : pivotRow st.L i m = i := by
    rw [pivotRow]
    refine foldl_pivot_stay st.L i _ ?_
    intro k hk
    rw [List.mem_range'_1] at hk
    rw [hLii, hLki k (by omega) (by omega)]
    have hb := pivotSeq_bounds i
    rw [abs_of_pos (pivotSeq_pos i)]
    by_cases hk1 : k = i + 1
    · rw [if_pos hk1, abs_one]
      intro hcon
      linarith
    · rw [if_neg hk1, abs_zero]
      intro hcon
      linarith
  rw [forwardStep, hpivot, rowSwap_self, rowSwap_self]
  have hguard : ¬ |st.L i i| < eps := by
    rw [hLii, abs_of_pos (pivotSeq_pos i), eps]
    have hb := pivotSeq_bounds i
    intro hcon
    rw [show (10 : ℚ) ^ 10 = 10000000000 by norm_num] at hcon
    linarith
  rw [if_neg (show ¬ |(GE.mk st.L st.R).L i i| < eps from hguard)]
  refine ⟨_, rfl, ?_⟩
  intro hi1
  have hLi1i : st.L (i + 1) i = 1 := by
    rw [hLki (i + 1) (le_refl _) hi1, if_pos rfl]
  have hfold : (List.range' (i + 1) (m - (i + 1))).foldl
      (fun s k => elimRow s i k) (GE.mk st.L st.R)
      = elimRow (GE.mk st.L st.R) i (i + 1) := by
    rw [show m - (i + 1) = (m - (i + 2)) + 1 by omega]
    rw [show List.range' (i + 1) ((m - (i + 2)) + 1)
        = (i + 1) :: List.range' (i + 2) (m - (i + 2)) from rfl]
    rw [List.foldl_cons]
    refine elimFold_zero i _ _ ?_
    intro k hk
    rw [List.mem_range'_1] at hk
    have hne : ¬ (k = i + 1 ∧ i ≤ i) := by omega
    simp only [elimRow, if_neg hne]
    rw [hLki k (by omega) (by omega), if_neg (by omega)]
  rw [hfold]
  have hps := pivotSeq_pos i
  have hLrow1 : ∀ c, (elimRow (GE.mk st.L st.R) i (i + 1)).L (i + 1) c
      = if i ≤ c then st.L (i + 1) c - st.L (i + 1) i / st.L i i * st.L i c
        else st.L (i + 1) c := by
    intro c
    simp only [elimRow, eq_self_iff_true, true_and]
  have hLother : ∀ r c, r ≠ i + 1 → (elimRow (GE.mk st.L st.R) i (i + 1)).L r c
      = st.L r c := by
    intro r c hr
    simp only [elimRow, if_neg (show ¬ (r = i + 1 ∧ i ≤ c) from fun hh => hr hh.1)]
  constructor
  · intro c hc
    rw [hLrow1 c]
    rcases Nat.lt_or_ge c i with hclt | hcge
    · rw [if_neg (by omega)]
      rw [hrest (i + 1) hi1 (by omega) c hc, triC, if_pos ⟨hi1, hc⟩,
        if_neg (by omega), if_neg (by omega)]
      rw [if_neg (by omega), if_neg (by omega)]
    · rw [if_pos hcge, hLi1i, hLii]
      by_cases hci : c = i
      · rw [hci]
        rw [hrow i hi, if_pos rfl]
        rw [hrest (i + 1) hi1 (by omega) i hi, triC, if_pos ⟨hi1, hi⟩,
          if_neg (by omega), if_pos (Or.inl rfl)]
        rw [if_neg (by omega), if_neg (by omega)]
        field_simp
      · by_cases hci1 : c = i + 1
        · rw [hci1]
          rw [hrow (i + 1) hi1, if_neg (by omega), if_pos rfl]
          rw [hrest (i + 1) hi1 (by omega) (i + 1) hi1, triC, if_pos ⟨hi1, hi1⟩,
            if_pos rfl]
          rw [if_pos rfl]
          rw [pivotSeq]
          ring
        · rw [hrow c hc, if_neg hci, if_neg hci1, mul_zero, sub_zero]
          rw [hrest (i + 1) hi1 (by omega) c hc, triC, if_pos ⟨hi1, hc⟩,
            if_neg (by omega)]
          by_cases hc3 : c = i + 2
          · rw [if_pos (Or.inr hc3), if_neg hci1, if_pos hc3]
          · rw [if_neg (by omega), if_neg hci1, if_neg hc3]
  · intro r hr hir c hc
    rw [hLother r c (by omega)]
    exact hrest r hr (by omega) c hc

theorem forwardAux_triC (m : ℕ) (h2m : 2 ≤ m) :
    ∀ (cnt i : ℕ) (st : GE), i + cnt = m → (cnt = 0 ∨ TriInv m i st) →
      ∃ st1, forwardAux m st (List.range' i cnt) = some st1 := by
  intro cnt
  induction cnt with
  | zero =>
    intro i st _ _
    exact ⟨st, rfl⟩
  | succ c ih =>
    intro i st hi hinv
    rcases hinv with h0 | hinv
    · exact absurd h0 (by omega)
    obtain ⟨st1, hstep, htri⟩ := forwardStep_triC m i st (by omega) h2m hinv
    rw [show List.range' i (c + 1) = i :: List.range' (i + 1) c from rfl,
      forwardAux, hstep, Option.some_bind]
    refine ih (i + 1) st1 (by omega) ?_
    rcases Nat.eq_zero_or_pos c with hc0 | hcpos
    · exact Or.inl hc0
    · exact Or.inr (htri (by omega))

theorem triC_TriInv_init (m : ℕ) (h2m : 2 ≤ m) : TriInv m 0 ⟨triC m, idMat⟩ := by
  constructor
  · intro c hc
    simp only
    rw [triC, if_pos ⟨by omega, hc⟩]
    by_cases hc0 : c = 0
    · rw [if_pos hc0.symm, if_pos hc0]
      rw [show pivotSeq 0 = 4 from rfl]
    · rw [if_neg (fun hh => hc0 hh.symm), if_neg hc0]
      by_cases hc1 : c = 1
      · rw [if_pos (Or.inr (by omega)), if_pos hc1]
      · rw [if_neg (by omega), if_neg hc1]
  · intro r _ _ c _
    rfl

/-- The solve on the constant tridiagonal matrix always succeeds: the
singular-matrix branch of `Matrix.inverse` is unreachable. -/
theorem inverse_buildC_some (m : ℕ) (h2m : 2 ≤ m) :
    ∃ Minv, inverse m (buildC m) = some Minv := by
  have hbc : buildC m = triC m := funext fun r => funext fun c => buildC_eq_triC m r c
  rw [inverse, hbc]
  obtain ⟨st1, hst1⟩ := forwardAux_triC m h2m m 0 ⟨triC m, idMat⟩ (by omega)
    (Or.inr (triC_TriInv_init m h2m))
  rw [forward, List.range_eq_range', hst1, Option.map_some']
  exact ⟨_, rfl⟩

/-! ### Structure of createSegment -/

theorem createSegment_form (points : List Point3) (h : 4 ≤ points.length) :
    ∃ Cinv, inverse (points.length - 2) (buildC (points.length - 2)) = some Cinv ∧
      createSegment points = (List.range (points.length - 1)).map fun i =>
        ⟨pt points i,
         dCtrl points (multiply (points.length - 2) Cinv (buildS points)) (2 * i),
         dCtrl points (multiply (points.length - 2) Cinv (buildS points)) (2 * i + 1),
         pt points (i + 1)⟩ := by
  obtain ⟨Cinv, hCinv⟩ := inverse_buildC_some (points.length - 2) (by omega)
  refine ⟨Cinv, hCinv, ?_⟩
  show (if points.length < 4 then []
    else (inverse (points.length - 2) (buildC (points.length - 2))).elim []
      fun Cinv2 =>
        (List.range (points.length - 1)).map fun i =>
          (⟨pt points i,
            dCtrl points (multiply (points.length - 2) Cinv2 (buildS points)) (2 * i),
            dCtrl points (multiply (points.length - 2) Cinv2 (buildS points)) (2 * i + 1),
            pt points (i + 1)⟩ : BezierQuadruple)) = _
  rw [if_neg (by omega), hCinv]
  rfl

/-- Claim C1: for every point list of length `n ≥ 4`, `createSegment`
returns exactly `n − 1` Bezier segments, and segment `i` starts at input
point `i` (`p0`) and ends at input point `i + 1` (`p3`): the fitted curve
interpolates every knot.  (The tridiagonal solve always succeeds, so the
empty-result branches are not taken.) -/
theorem c1_segment_interpolation (points : List Point3) (h : 4 ≤ points.length) :
    (createSegment points).length = points.length - 1 ∧
    ∀ i, i < points.length - 1 →
      ((createSegment points).getD i default).p0 = pt points i ∧
      ((createSegment points).getD i default).p3 = pt points (i + 1) := by
  obtain ⟨Cinv, _, hform⟩ := createSegment_form points h
  rw [hform]
  constructor
  · rw [List.length_map, List.length_range]
  · intro i hi
    have hlen : i < ((List.range (points.length - 1)).map fun i =>
        (⟨pt points i,
          dCtrl points (multiply (points.length - 2) Cinv (buildS points)) (2 * i),
          dCtrl points (multiply (points.length - 2) Cinv (buildS points)) (2 * i + 1),
          pt points (i + 1)⟩ : BezierQuadruple)).length := by
      rw [List.length_map, List.length_range]
      exact hi
    rw [List.getD_eq_getElem _ _ hlen]
    rw [List.getElem_map]
    rw [List.getElem_range]
    exact ⟨rfl, rfl⟩

/-- Witness for C1 at a concrete 4-point stroke. -/
theorem c1_segment_interpolation_witness :
    4 ≤ ([⟨0, 0, 0⟩, ⟨1, 0, 0⟩, ⟨2, 1, 0⟩, ⟨3, 1, 0⟩] : List Point3).length ∧
    ((createSegment [⟨0, 0, 0⟩, ⟨1, 0, 0⟩, ⟨2, 1, 0⟩, ⟨3, 1, 0⟩]).length
        = ([⟨0, 0, 0⟩, ⟨1, 0, 0⟩, ⟨2, 1, 0⟩, ⟨3, 1, 0⟩] : List Point3).length - 1 ∧
     ∀ i, i < ([⟨0, 0, 0⟩, ⟨1, 0, 0⟩, ⟨2, 1, 0⟩, ⟨3, 1, 0⟩] : List Point3).length - 1 →
      ((createSegment [⟨0, 0, 0⟩, ⟨1, 0, 0⟩, ⟨2, 1, 0⟩, ⟨3, 1, 0⟩]).getD i default).p0
          = pt [⟨0, 0, 0⟩, ⟨1, 0, 0⟩, ⟨2, 1, 0⟩, ⟨3, 1, 0⟩] i ∧
      ((createSegment [⟨0, 0, 0⟩, ⟨1, 0, 0⟩, ⟨2, 1, 0⟩, ⟨3, 1, 0⟩]).getD i default).p3
          = pt [⟨0, 0, 0⟩, ⟨1, 0, 0⟩, ⟨2, 1, 0⟩, ⟨3, 1, 0⟩] (i + 1)) :=
  ⟨by decide,
    c1_segment_interpolation [⟨0, 0, 0⟩, ⟨1, 0, 0⟩, ⟨2, 1, 0⟩, ⟨3, 1, 0⟩] (by decide)⟩

/-! ### Entries of the right-hand-side matrix S -/

theorem setEntry_at (M : Mat) (a b : ℕ) (v : ℚ) : setEntry M a b v a b = v := by
  rw [setEntry, if_pos ⟨rfl, rfl⟩]

theorem setEntry_away (M : Mat) (a b : ℕ) (v : ℚ) (r c : ℕ) (h : ¬ (r = a ∧ c = b)) :
    setEntry M a b v r c = M r c := by
  rw [setEntry, if_neg h]

theorem setRow2_at0 (M : Mat) (r : ℕ) (v0 v1 : ℚ) : setRow2 M r v0 v1 r 0 = v0 := by
  rw [setRow2, setEntry_away _ _ _ _ _ _ (by omega), setEntry_at]

theorem setRow2_at1 (M : Mat) (r : ℕ) (v0 v1 : ℚ) : setRow2 M r v0 v1 r 1 = v1 := by
  rw [setRow2, setEntry_at]

theorem setRow2_away (M : Mat) (r : ℕ) (v0 v1 : ℚ) (r2 c : ℕ) (h : r2 ≠ r) :
    setRow2 M r v0 v1 r2 c = M r2 c := by
  rw [setRow2, setEntry_away _ _ _ _ _ _ (by tauto), setEntry_away _ _ _ _ _ _ (by tauto)]

theorem foldS_untouched (f0 f1 : ℕ → ℚ) :
    ∀ (l : List ℕ) (M : Mat) (r c : ℕ), (∀ i ∈ l, i + 1 ≠ r) →
      (l.foldl (fun M2 i => setRow2 M2 (i + 1) (f0 i) (f1 i)) M) r c = M r c := by
  intro l
  induction l with
  | nil => exact fun M r c _ => rfl
  | cons i t ih =>
    intro M r c h
    rw [List.foldl_cons, ih _ r c fun x hx => h x (by simp [hx])]
    exact setRow2_away _ _ _ _ _ _ fun hr => h i (by simp) hr.symm

theorem foldS_written (f0 f1 : ℕ → ℚ) :
    ∀ (k : ℕ) (M : Mat) (i0 : ℕ), i0 < k →
      ((List.range k).foldl (fun M2 i => setRow2 M2 (i + 1) (f0 i) (f1 i)) M) (i0 + 1) 0
          = f0 i0 ∧
      ((List.range k).foldl (fun M2 i => setRow2 M2 (i + 1) (f0 i) (f1 i)) M) (i0 + 1) 1
          = f1 i0 := by
  intro k
  induction k with
  | zero => intro M i0 h; omega
  | succ k ih =>
    intro M i0 h
    rw [List.range_succ, List.foldl_append, List.foldl_cons, List.foldl_nil]
    by_cases hk : i0 = k
    · subst hk
      exact ⟨setRow2_at0 _ _ _ _, setRow2_at1 _ _ _ _⟩
    · rw [setRow2_away _ _ _ _ _ _ (by omega), setRow2_away _ _ _ _ _ _ (by omega)]
      exact ih M i0 (by omega)

theorem buildS_entries (points : List Point3) (h : 4 ≤ points.length) :
    (buildS points 0 0 = 6 * (pt points 1).x - (pt points 0).x ∧
     buildS points 0 1 = 6 * (pt points 1).y - (pt points 0).y) ∧
    (buildS points (points.length - 3) 0
        = 6 * (pt points (points.length - 2)).x - (pt points (points.length - 1)).x ∧
     buildS points (points.length - 3) 1
        = 6 * (pt points (points.length - 2)).y - (pt points (points.length - 1)).y) ∧
    (∀ r, 1 ≤ r → r ≤ points.length - 4 →
      buildS points r 0 = 6 * (pt points (r + 1)).x ∧
      buildS points r 1 = 6 * (pt points (r + 1)).y) := by
  rw [buildS]
  refine ⟨⟨?_, ?_⟩, ⟨?_, ?_⟩, ?_⟩
  · rw [setRow2_away _ _ _ _ _ _ (by omega),
      foldS_untouched _ _ _ _ _ _ (fun i hi => by omega), setRow2_at0]
  · rw [setRow2_away _ _ _ _ _ _ (by omega),
      foldS_untouched _ _ _ _ _ _ (fun i hi => by omega), setRow2_at1]
  · rw [setRow2_at0]
  · rw [setRow2_at1]
  · intro r hr1 hr2
    obtain ⟨r0, rfl⟩ : ∃ r0, r = r0 + 1 := ⟨r - 1, by omega⟩
    constructor
    · rw [setRow2_away _ _ _ _ _ _ (by omega)]
      exact (foldS_written _ _ (points.length - 4) _ r0 (by omega)).1
    · rw [setRow2_away _ _ _ _ _ _ (by omega)]
      exact (foldS_written _ _ (points.length - 4) _ r0 (by omega)).2

/-! ### Values of the control-point array D -/

theorem dCtrl_def (points : List Point3) (B : Mat) (j : ℕ) :
    dCtrl points B j =
      (if j / 2 = 0 then
        (⟨lerp (pt points 0).x (B 0 0) (if j % 2 = 0 then 1 / 3 else 2 / 3),
          lerp (pt points 0).y (B 0 1) (if j % 2 = 0 then 1 / 3 else 2 / 3),
          (pt points 0).z⟩ : Point3)
      else if j / 2 < points.length - 2 then
        ⟨lerp (B (j / 2 - 1) 0) (B (j / 2) 0) (if j % 2 = 0 then 1 / 3 else 2 / 3),
         lerp (B (j / 2 - 1) 1) (B (j / 2) 1) (if j % 2 = 0 then 1 / 3 else 2 / 3),
         (pt points (j / 2)).z⟩
      else
        ⟨lerp (B (points.length - 3) 0) (pt points (points.length - 1)).x
           (if j % 2 = 0 then 1 / 3 else 2 / 3),
         lerp (B (points.length - 3) 1) (pt points (points.length - 1)).y
           (if j % 2 = 0 then 1 / 3 else 2 / 3),
         (pt points (points.length - 1)).z⟩) := rfl

/-! ### C1 continuity of the emitted segments -/

theorem createSegment_getD (points : List Point3) (h : 4 ≤ points.length)
    (Cinv : Mat) (hCinv : inverse (points.length - 2) (buildC (points.length - 2)) = some Cinv)
    (hform : createSegment points = (List.range (points.length - 1)).map fun i =>
        ⟨pt points i,
         dCtrl points (multiply (points.length - 2) Cinv (buildS points)) (2 * i),
         dCtrl points (multiply (points.length - 2) Cinv (buildS points)) (2 * i + 1),
         pt points (i + 1)⟩)
    (i : ℕ) (hi : i < points.length - 1) :
    (createSegment points).getD i default =
      ⟨pt points i,
       dCtrl points (multiply (points.length - 2) Cinv (buildS points)) (2 * i),
       dCtrl points (multiply (points.length - 2) Cinv (buildS points)) (2 * i + 1),
       pt points (i + 1)⟩ := by
  rw [hform]
  have hlen : i < ((List.range (points.length - 1)).map fun i =>
      (⟨pt points i,
        dCtrl points (multiply (points.length - 2) Cinv (buildS points)) (2 * i),
        dCtrl points (multiply (points.length - 2) Cinv (buildS points)) (2 * i + 1),
        pt points (i + 1)⟩ : BezierQuadruple)).length := by
    rw [List.length_map, List.length_range]
    exact hi
  rw [List.getD_eq_getElem _ _ hlen, List.getElem_map, List.getElem_range]

/-- Claim C2: under exact arithmetic the emitted segments meet with equal
tangents at every interior knot: for `i + 1 < n − 1`, the outgoing
control difference of segment `i` equals the incoming control difference
of segment `i + 1` — `P[i+1] − D[2i+1] = D[2i+2] − P[i+1]` in x and y. -/
theorem c2_tangent_continuity (points : List Point3) (h : 4 ≤ points.length) :
    ∀ i, i < points.length - 2 →
      ((pt points (i + 1)).x - ((createSegment points).getD i default).p2.x
        = ((createSegment points).getD (i + 1) default).p1.x - (pt points (i + 1)).x) ∧
      ((pt points (i + 1)).y - ((createSegment points).getD i default).p2.y
        = ((createSegment points).getD (i + 1) default).p1.y - (pt points (i + 1)).y) := by
  obtain ⟨k, hk⟩ : ∃ k, points.length = k + 4 := ⟨points.length - 4, by omega⟩
  obtain ⟨Cinv, hCinv, hform⟩ := createSegment_form points h
  intro i hi
  rw [createSegment_getD points h Cinv hCinv hform i (by omega)]
  rw [createSegment_getD points h Cinv hCinv hform (i + 1) (by omega)]
  simp only
  set B : Mat := multiply (points.length - 2) Cinv (buildS points) with hB
  have hrel : ∀ r, r < points.length - 2 → ∀ c,
      (if 1 ≤ r then B (r - 1) c else 0) + 4 * B r c +
        (if r + 1 < points.length - 2 then B (r + 1) c else 0)
      = buildS points r c := by
    intro r hr c
    have h1 := solve_relation (points.length - 2) (buildC (points.length - 2)) Cinv
      (buildS points) hCinv r hr c
    rw [← hB] at h1
    rw [multiply] at h1
    rw [Finset.sum_congr rfl fun k2 _ => by rw [buildC_eq_triC]] at h1
    rw [triC_row_mul (points.length - 2) (fun k2 => B k2 c) r hr] at h1
    exact h1
  obtain ⟨hS0, hSlast, hSmid⟩ := buildS_entries points h
  by_cases hi0 : i = 0
  · subst hi0
    have hd1 : dCtrl points B (2 * 0 + 1) =
        ⟨lerp (pt points 0).x (B 0 0) (2 / 3), lerp (pt points 0).y (B 0 1) (2 / 3),
         (pt points 0).z⟩ := by
      rw [dCtrl_def]
      rw [if_pos (by omega)]
      rw [if_neg (by omega)]
    have hd2 : dCtrl points B (2 * (0 + 1)) =
        ⟨lerp (B 0 0) (B 1 0) (1 / 3), lerp (B 0 1) (B 1 1) (1 / 3),
         (pt points 1).z⟩ := by
      rw [dCtrl_def]
      rw [if_neg (by omega), if_pos (by omega)]
      rw [show (2 * (0 + 1)) / 2 - 1 = 0 by omega, show (2 * (0 + 1)) / 2 = 1 by omega]
      rw [if_pos (by omega)]
    rw [hd1, hd2]
    have hrx := hrel 0 (by omega) 0
    have hry := hrel 0 (by omega) 1
    rw [if_neg (show ¬ (1 ≤ 0) by omega),
      if_pos (show 0 + 1 < points.length - 2 by omega), hS0.1] at hrx
    rw [if_neg (show ¬ (1 ≤ 0) by omega),
      if_pos (show 0 + 1 < points.length - 2 by omega), hS0.2] at hry
    constructor
    · show (pt points 1).x - lerp (pt points 0).x (B 0 0) (2 / 3)
        = lerp (B 0 0) (B 1 0) (1 / 3) - (pt points 1).x
      rw [lerp, lerp]
      linarith
    · show (pt points 1).y - lerp (pt points 0).y (B 0 1) (2 / 3)
        = lerp (B 0 1) (B 1 1) (1 / 3) - (pt points 1).y
      rw [lerp, lerp]
      linarith
  · by_cases hilast : i = k + 1
    · subst hilast
      have hd1 : dCtrl points B (2 * (k + 1) + 1) =
          ⟨lerp (B k 0) (B (k + 1) 0) (2 / 3), lerp (B k 1) (B (k + 1) 1) (2 / 3),
           (pt points (k + 1)).z⟩ := by
        rw [dCtrl_def]
        rw [if_neg (by omega), if_pos (by omega)]
        rw [show (2 * (k + 1) + 1) / 2 - 1 = k by omega,
          show (2 * (k + 1) + 1) / 2 = k + 1 by omega]
        rw [if_neg (by omega)]
      have hd2 : dCtrl points B (2 * (k + 1 + 1)) =
          ⟨lerp (B (points.length - 3) 0) (pt points (points.length - 1)).x (1 / 3),
           lerp (B (points.length - 3) 1) (pt points (points.length - 1)).y (1 / 3),
           (pt points (points.length - 1)).z⟩ := by
        rw [dCtrl_def]
        rw [if_neg (by omega), if_neg (by omega)]
        rw [if_pos (show 2 * (k + 1 + 1) % 2 = 0 by omega)]
      rw [hd1, hd2]
      have hrx := hrel (k + 1) (by omega) 0
      have hry := hrel (k + 1) (by omega) 1
      rw [if_pos (show 1 ≤ k + 1 by omega),
        if_neg (show ¬ (k + 1 + 1 < points.length - 2) by omega),
        show k + 1 - 1 = k by omega] at hrx hry
      rw [show (points.length - 3) = k + 1 by omega] at hSlast
      rw [hSlast.1] at hrx
      rw [hSlast.2] at hry
      rw [show points.length - 2 = k + 2 by omega,
        show points.length - 1 = k + 3 by omega] at hrx hry
      rw [show (points.length - 3) = k + 1 by omega,
        show (points.length - 1) = k + 3 by omega]
      constructor
      · show (pt points (k + 2)).x - lerp (B k 0) (B (k + 1) 0) (2 / 3)
          = lerp (B (k + 1) 0) (pt points (k + 3)).x (1 / 3) - (pt points (k + 2)).x
        rw [lerp, lerp]
        linarith
      · show (pt points (k + 2)).y - lerp (B k 1) (B (k + 1) 1) (2 / 3)
          = lerp (B (k + 1) 1) (pt points (k + 3)).y (1 / 3) - (pt points (k + 2)).y
        rw [lerp, lerp]
        linarith
    · have hi1 : 1 ≤ i := by omega
      have hik : i ≤ k := by omega
      have hd1 : dCtrl points B (2 * i + 1) =
          ⟨lerp (B (i - 1) 0) (B i 0) (2 / 3), lerp (B (i - 1) 1) (B i 1) (2 / 3),
           (pt points i).z⟩ := by
        rw [dCtrl_def]
        rw [if_neg (by omega), if_pos (by omega)]
        rw [show (2 * i + 1) / 2 - 1 = i - 1 by omega, show (2 * i + 1) / 2 = i by omega]
        rw [if_neg (by omega)]
      have hd2 : dCtrl points B (2 * (i + 1)) =
          ⟨lerp (B i 0) (B (i + 1) 0) (1 / 3), lerp (B i 1) (B (i + 1) 1) (1 / 3),
           (pt points (i + 1)).z⟩ := by
        rw [dCtrl_def]
        rw [if_neg (by omega), if_pos (by omega)]
        rw [show (2 * (i + 1)) / 2 - 1 = i by omega, show (2 * (i + 1)) / 2 = i + 1 by omega]
        rw [if_pos (by omega)]
      rw [hd1, hd2]
      have hrx := hrel i (by omega) 0
      have hry := hrel i (by omega) 1
      rw [if_pos hi1, if_pos (show i + 1 < points.length - 2 by omega),
        (hSmid i hi1 (by omega)).1] at hrx
      rw [if_pos hi1, if_pos (show i + 1 < points.length - 2 by omega),
        (hSmid i hi1 (by omega)).2] at hry
      constructor
      · show (pt points (i + 1)).x - lerp (B (i - 1) 0) (B i 0) (2 / 3)
          = lerp (B i 0) (B (i + 1) 0) (1 / 3) - (pt points (i + 1)).x
        rw [lerp, lerp]
        linarith
      · show (pt points (i + 1)).y - lerp (B (i - 1) 1) (B i 1) (2 / 3)
          = lerp (B i 1) (B (i + 1) 1) (1 / 3) - (pt points (i + 1)).y
        rw [lerp, lerp]
        linarith

/-- Witness for C2 at a concrete 5-point stroke. -/
theorem c2_tangent_continuity_witness :
    4 ≤ ([⟨0, 0, 0⟩, ⟨1, 0, 0⟩, ⟨2, 1, 0⟩, ⟨3, 1, 0⟩, ⟨4, 0, 0⟩] : List Point3).length ∧
    (∀ i, i < ([⟨0, 0, 0⟩, ⟨1, 0, 0⟩, ⟨2, 1, 0⟩, ⟨3, 1, 0⟩, ⟨4, 0, 0⟩] : List Point3).length - 2 →
      ((pt [⟨0, 0, 0⟩, ⟨1, 0, 0⟩, ⟨2, 1, 0⟩, ⟨3, 1, 0⟩, ⟨4, 0, 0⟩] (i + 1)).x -
          ((createSegment [⟨0, 0, 0⟩, ⟨1, 0, 0⟩, ⟨2, 1, 0⟩, ⟨3, 1, 0⟩, ⟨4, 0, 0⟩]).getD i default).p2.x
        = ((createSegment [⟨0, 0, 0⟩, ⟨1, 0, 0⟩, ⟨2, 1, 0⟩, ⟨3, 1, 0⟩, ⟨4, 0, 0⟩]).getD (i + 1) default).p1.x -
          (pt [⟨0, 0, 0⟩, ⟨1, 0, 0⟩, ⟨2, 1, 0⟩, ⟨3, 1, 0⟩, ⟨4, 0, 0⟩] (i + 1)).x) ∧
      ((pt [⟨0, 0, 0⟩, ⟨1, 0, 0⟩, ⟨2, 1, 0⟩, ⟨3, 1, 0⟩, ⟨4, 0, 0⟩] (i + 1)).y -
          ((createSegment [⟨0, 0, 0⟩, ⟨1, 0, 0⟩, ⟨2, 1, 0⟩, ⟨3, 1, 0⟩, ⟨4, 0, 0⟩]).getD i default).p2.y
        = ((createSegment [⟨0, 0, 0⟩, ⟨1, 0, 0⟩, ⟨2, 1, 0⟩, ⟨3, 1, 0⟩, ⟨4, 0, 0⟩]).getD (i + 1) default).p1.y -
          (pt [⟨0, 0, 0⟩, ⟨1, 0, 0⟩, ⟨2, 1, 0⟩, ⟨3, 1, 0⟩, ⟨4, 0, 0⟩] (i + 1)).y)) :=
  ⟨by decide,
    c2_tangent_continuity [⟨0, 0, 0⟩, ⟨1, 0, 0⟩, ⟨2, 1, 0⟩, ⟨3, 1, 0⟩, ⟨4, 0, 0⟩] (by decide)⟩

/-! ### C10: the tridiagonal system is constant, strictly diagonally
dominant, and the singular branch of `inverse` is unreachable -/

/-- Every entry of `triC` is nonnegative (the entries are 4, 1 or 0). -/
theorem triC_nonneg (m i j : ℕ) : 0 ≤ triC m i j := by
  rw [triC]
  split_ifs <;> norm_num

/-- The diagonal of the tridiagonal matrix is 4 on the allocated range. -/
theorem triC_diag (m i : ℕ) (hi : i < m) : triC m i i = 4 := by
  rw [triC, if_pos ⟨hi, hi⟩, if_pos rfl]

/-- Claim C10: the matrix `C` assembled by `createSegment` for a system of
size `m = n − 2 ≥ 2` is the constant tridiagonal matrix (4 on the diagonal,
1 on the two adjacent diagonals), independent of the input points (the
embedded `buildC` reads only the size); it is strictly diagonally dominant
(each off-diagonal absolute row sum is below the diagonal entry); under
exact arithmetic `inverse` therefore never takes the singular-matrix
branch — it returns `some` — and `createSegment` returns a nonempty
segment list for every point configuration of length `m + 2`, duplicates
and collinear points included. -/
theorem c10_tridiagonal_solver_safe (m : ℕ) (h2m : 2 ≤ m) :
    (∀ i j, buildC m i j = triC m i j) ∧
    (∀ i, i < m →
      ∑ j ∈ (Finset.range m).erase i, |buildC m i j| < |buildC m i i|) ∧
    (∃ Minv, inverse m (buildC m) = some Minv) ∧
    (∀ points : List Point3, points.length = m + 2 → createSegment points ≠ []) := by
  refine ⟨buildC_eq_triC m, ?_, inverse_buildC_some m h2m, ?_⟩
  · intro i hi
    have hrow : ∑ j ∈ Finset.range m, triC m i j =
        (if 1 ≤ i then (1 : ℚ) else 0) + 4 + (if i + 1 < m then (1 : ℚ) else 0) := by
      have h0 := triC_row_mul m (fun _ => (1 : ℚ)) i hi
      simp only [mul_one] at h0
      exact h0
    have hmem : i ∈ Finset.range m := Finset.mem_range.mpr hi
    have hsum := Finset.add_sum_erase (Finset.range m) (fun j => triC m i j) hmem
    simp only at hsum
    rw [triC_diag m i hi, hrow] at hsum
    have herase : ∑ j ∈ (Finset.range m).erase i, |buildC m i j| =
        ∑ j ∈ (Finset.range m).erase i, triC m i j := by
      refine Finset.sum_congr rfl fun j _ => ?_
      rw [buildC_eq_triC m i j, abs_of_nonneg (triC_nonneg m i j)]
    rw [herase, buildC_eq_triC m i i, triC_diag m i hi,
      show |(4 : ℚ)| = 4 by norm_num]
    split_ifs at hsum <;> linarith
  · intro points hlen
    obtain ⟨Cinv, hCinv, hform⟩ := createSegment_form points (by omega)
    rw [hform]
    simp only [ne_eq, List.map_eq_nil_iff, List.range_eq_nil]
    omega

/-- Witness for C10 at system size `m = 2` (a 4-point stroke). -/
theorem c10_tridiagonal_solver_safe_witness :
    2 ≤ 2 ∧
    ((∀ i j, buildC 2 i j = triC 2 i j) ∧
     (∀ i, i < 2 →
       ∑ j ∈ (Finset.range 2).erase i, |buildC 2 i j| < |buildC 2 i i|) ∧
     (∃ Minv, inverse 2 (buildC 2) = some Minv) ∧
     (∀ points : List Point3, points.length = 2 + 2 → createSegment points ≠ [])) :=
  ⟨by norm_num, c10_tridiagonal_solver_safe 2 (by norm_num)⟩

/-! ### C7: cap placement on multi-chunk strokes -/

/-- Every chunk emitted by the chunker carries at least 4 points (the
`chunkPoints.length >= 4` guard). -/
theorem chunksFrom_min4 (points : List Point3) :
    ∀ d s, points.length - s = d → s + 4 ≤ points.length →
      ∀ c ∈ createChunksFrom points s, 4 ≤ c.points.length := by
  have hcs : chunkSize = 12 := rfl
  have hco : chunkOverlap = 3 := rfl
  intro d
  induction d using Nat.strong_induction_on with
  | _ d ih =>
    intro s hd h c hc
    rw [createChunksFrom_step points s h] at hc
    rcases List.mem_cons.mp hc with hc1 | hc1
    · subst hc1
      have hm2 : min (s + chunkSize) points.length ≤ points.length := min_le_right _ _
      have hm3 : s + 4 ≤ min (s + chunkSize) points.length := le_min (by omega) h
      simp only [List.length_take, List.length_drop]
      omega
    · by_cases hle : points.length ≤ s + chunkSize
      · rw [if_pos hle] at hc1
        exact absurd hc1 (List.not_mem_nil c)
      · rw [if_neg hle] at hc1
        exact ih (points.length - (s + (chunkSize - chunkOverlap))) (by omega)
          (s + (chunkSize - chunkOverlap)) rfl (by omega) c hc1

/-- The fit of any list of at least 4 points yields at least one segment. -/
theorem createSegment_pos (points : List Point3) (h : 4 ≤ points.length) :
    0 < (createSegment points).length := by
  obtain ⟨Cinv, _, hform⟩ := createSegment_form points h
  rw [hform, List.length_map, List.length_range]
  omega

/-- When the chunk fit is nonempty, one `createStroke` loop iteration
appends exactly one chunk mesh, capped at index 0 and at the last index. -/
theorem strokeFoldStep_pos (points : List Point3) (cl subs : ℕ)
    (acc : List ChunkGeometry × ℕ) (p : ℕ × Chunk)
    (h : 0 < (createSegment p.2.points).length) :
    strokeFoldStep points cl subs acc p =
      (acc.1 ++ [createChunkGeometry (createSegment p.2.points)
          (if p.1 = 0 then some (pt points 0) else none)
          (if p.1 = cl - 1 then some (pt points (points.length - 1)) else none) subs],
       acc.2 + (createSegment p.2.points).length) := by
  rw [strokeFoldStep]
  show (if 0 < (createSegment p.2.points).length then _ else acc) = _
  rw [if_pos h]

/-- The corresponding fact for the rebuild loop of `updateStrokeGeometry`. -/
theorem rebuildFoldStep_pos (points : List Point3) (cl subs : ℕ)
    (acc : List ChunkGeometry) (p : ℕ × Chunk)
    (h : 0 < (createSegment p.2.points).length) :
    rebuildFoldStep points cl subs acc p =
      acc ++ [createChunkGeometry (createSegment p.2.points)
          (if p.1 = 0 then some (pt points 0) else none)
          (if p.1 = cl - 1 then some (pt points (points.length - 1)) else none) subs] := by
  rw [rebuildFoldStep]
  show (if 0 < (createSegment p.2.points).length then _ else acc) = _
  rw [if_pos h]

/-- The mesh produced for the enumerated chunk `p`. -/
def chunkMesh (points : List Point3) (cl subs : ℕ) (p : ℕ × Chunk) : ChunkGeometry :=
  createChunkGeometry (createSegment p.2.points)
    (if p.1 = 0 then some (pt points 0) else none)
    (if p.1 = cl - 1 then some (pt points (points.length - 1)) else none) subs

/-- When every chunk fit is nonempty, the `createStroke` accumulation loop
is a `map` over the enumerated chunks plus a running segment count. -/
theorem strokeFold_map (points : List Point3) (cl subs : ℕ) :
    ∀ (l : List (ℕ × Chunk)) (acc : List ChunkGeometry × ℕ),
      (∀ p ∈ l, 0 < (createSegment p.2.points).length) →
      l.foldl (strokeFoldStep points cl subs) acc =
        (acc.1 ++ l.map (chunkMesh points cl subs),
         acc.2 + (l.map fun p => (createSegment p.2.points).length).sum) := by
  intro l
  induction l with
  | nil =>
    intro acc _
    simp
  | cons a l ih =>
    intro acc hall
    rw [List.foldl_cons,
      strokeFoldStep_pos points cl subs acc a (hall a (List.mem_cons_self _ _)),
      ih _ fun p hp => hall p (List.mem_cons_of_mem _ hp),
      List.map_cons, List.map_cons, List.sum_cons]
    refine Prod.ext ?_ ?_
    · show (acc.1 ++ [chunkMesh points cl subs a]) ++ l.map (chunkMesh points cl subs)
        = acc.1 ++ (chunkMesh points cl subs a :: l.map (chunkMesh points cl subs))
      rw [List.append_assoc, List.singleton_append]
    · show acc.2 + (createSegment a.2.points).length +
          (l.map fun p => (createSegment p.2.points).length).sum = _
      simp only
      omega

/-- Likewise, the rebuild loop of `updateStrokeGeometry` is a `map`. -/
theorem rebuildFold_map (points : List Point3) (cl subs : ℕ) :
    ∀ (l : List (ℕ × Chunk)) (acc : List ChunkGeometry),
      (∀ p ∈ l, 0 < (createSegment p.2.points).length) →
      l.foldl (rebuildFoldStep points cl subs) acc =
        acc ++ l.map (chunkMesh points cl subs) := by
  intro l
  induction l with
  | nil =>
    intro acc _
    simp
  | cons a l ih =>
    intro acc hall
    rw [List.foldl_cons,
      rebuildFoldStep_pos points cl subs acc a (hall a (List.mem_cons_self _ _)),
      ih _ fun p hp => hall p (List.mem_cons_of_mem _ hp),
      List.map_cons, List.append_assoc, List.singleton_append]
    rfl

/-- Every enumerated chunk of a `≥ 4`-point stroke admits a nonempty fit. -/
theorem enum_chunks_pos (points : List Point3) (h : 4 ≤ points.length) :
    ∀ p ∈ (createChunks points).enum, 0 < (createSegment p.2.points).length := by
  intro p hp
  obtain ⟨i, hi, he⟩ := List.mem_iff_getElem.mp hp
  have hp2 : p.2 ∈ createChunks points := by
    rw [List.getElem_enum] at he
    rw [← he]
    exact List.getElem_mem _
  exact createSegment_pos _
    (chunksFrom_min4 points points.length 0 (by omega) (by omega) p.2 hp2)

/-- Claim C7: for every stroke of at least 4 points, `createStroke`
(with `debugMode` off) returns a stroke with one mesh per chunk, and the
mesh of chunk `j` carries a start cap exactly when `j = 0` — anchored at
the stroke's first raw point — and an end cap exactly when `j` is the
last chunk index — anchored at the stroke's last raw point — regardless
of the number of chunks; rebuilding through `updateStrokeGeometry`
reproduces exactly the same meshes. -/
theorem c7_cap_placement (points : List Point3) (h : 4 ≤ points.length)
    (width : ℚ) (camera : Option (ℚ × ℚ)) :
    ∃ stroke, createStroke points width false camera = .ok (some stroke) ∧
      stroke.points = points ∧
      stroke.meshes.length = (createChunks points).length ∧
      0 < stroke.meshes.length ∧
      (∀ j, j < stroke.meshes.length →
        stroke.meshes.getD j default =
          createChunkGeometry
            (createSegment ((createChunks points).getD j default).points)
            (if j = 0 then some (pt points 0) else none)
            (if j = stroke.meshes.length - 1 then
              some (pt points (points.length - 1)) else none)
            (calculateSubdivisions camera)) ∧
      (updateStrokeGeometry stroke camera).meshes = stroke.meshes := by
  have hpos := enum_chunks_pos points h
  have hfold := strokeFold_map points (createChunks points).length
    (calculateSubdivisions camera) (createChunks points).enum ([], 0) hpos
  refine ⟨⟨points,
    (createChunks points).enum.map
      (chunkMesh points (createChunks points).length (calculateSubdivisions camera)),
    ((createChunks points).enum.map
      fun p => (createSegment p.2.points).length).sum, true, width⟩, ?_, rfl, ?_, ?_, ?_, ?_⟩
  · rw [createStroke, if_neg (by omega)]
    show Except.ok (some (⟨points,
        ((createChunks points).enum.foldl (strokeFoldStep points
          (createChunks points).length (calculateSubdivisions camera)) ([], 0)).1,
        ((createChunks points).enum.foldl (strokeFoldStep points
          (createChunks points).length (calculateSubdivisions camera)) ([], 0)).2,
        true, width⟩ : Stroke)) = _
    rw [hfold]
    simp
  · simp only [List.length_map, List.enum_length]
  · simp only [List.length_map, List.enum_length]
    obtain ⟨c0, rest, hchunks⟩ :
        ∃ c0 rest, createChunks points = c0 :: rest :=
      ⟨_, _, createChunksFrom_step points 0 (by omega)⟩
    rw [hchunks, List.length_cons]
    omega
  · intro j hj
    simp only [List.length_map, List.enum_length] at hj ⊢
    have hj2 : j < (createChunks points).enum.length := by
      rw [List.enum_length]
      exact hj
    rw [List.getD_eq_getElem _ _ (by rw [List.length_map]; exact hj2),
      List.getElem_map, List.getElem_enum,
      List.getD_eq_getElem _ _ hj]
    rfl
  · rw [updateStrokeGeometry]
    show (createChunks points).enum.foldl (rebuildFoldStep points
      (createChunks points).length (calculateSubdivisions camera)) [] = _
    rw [rebuildFold_map points (createChunks points).length
      (calculateSubdivisions camera) (createChunks points).enum [] hpos,
      List.nil_append]

/-- Witness for C7 at a concrete 4-point stroke. -/
theorem c7_cap_placement_witness :
    4 ≤ ([⟨0, 0, 0⟩, ⟨1, 0, 0⟩, ⟨2, 1, 0⟩, ⟨3, 1, 0⟩] : List Point3).length ∧
    (∃ stroke, createStroke [⟨0, 0, 0⟩, ⟨1, 0, 0⟩, ⟨2, 1, 0⟩, ⟨3, 1, 0⟩] 1 false none
        = .ok (some stroke) ∧
      stroke.points = [⟨0, 0, 0⟩, ⟨1, 0, 0⟩, ⟨2, 1, 0⟩, ⟨3, 1, 0⟩] ∧
      stroke.meshes.length =
        (createChunks [⟨0, 0, 0⟩, ⟨1, 0, 0⟩, ⟨2, 1, 0⟩, ⟨3, 1, 0⟩]).length ∧
      0 < stroke.meshes.length ∧
      (∀ j, j < stroke.meshes.length →
        stroke.meshes.getD j default =
          createChunkGeometry
            (createSegment
              ((createChunks [⟨0, 0, 0⟩, ⟨1, 0, 0⟩, ⟨2, 1, 0⟩, ⟨3, 1, 0⟩]).getD j
                default).points)
            (if j = 0 then some (pt [⟨0, 0, 0⟩, ⟨1, 0, 0⟩, ⟨2, 1, 0⟩, ⟨3, 1, 0⟩] 0) else none)
            (if j = stroke.meshes.length - 1 then
              some (pt [⟨0, 0, 0⟩, ⟨1, 0, 0⟩, ⟨2, 1, 0⟩, ⟨3, 1, 0⟩]
                (([⟨0, 0, 0⟩, ⟨1, 0, 0⟩, ⟨2, 1, 0⟩, ⟨3, 1, 0⟩] : List Point3).length - 1))
              else none)
            (calculateSubdivisions none)) ∧
      (updateStrokeGeometry stroke none).meshes = stroke.meshes) :=
  ⟨by decide, c7_cap_placement [⟨0, 0, 0⟩, ⟨1, 0, 0⟩, ⟨2, 1, 0⟩, ⟨3, 1, 0⟩] (by decide) 1 none⟩

end WXR
